import Mathlib

/-!
# hclparse: the syntax-tree printer

A shallow embedding of `main.go` of the `hclparse` command: the visitor
`walker` with its two callbacks `Enter` and `Exit`, the operator table
`opAsString`, and the depth-first driver that calls them.

Conventions of the embedding.

* A byte string (`[]byte`, `string`) is a `List Char`; one `Char` stands for
  one byte of text.
* Standard output is the list of the writes made so far, oldest first: every
  `fmt.Print` / `fmt.Printf` call of the program is one write.  The text on the
  terminal is the concatenation of the writes (`flat`).
* A Go `panic` is the result `Run.panic`, which keeps the walker and the output
  as they were when the panic was raised.
* `w.indent` is a Go `int`; it is modelled as an unbounded `Int`.  Reaching the
  64-bit limit needs a tree nested `2^62` deep, which no memory holds.
-/

namespace HclParse

/-- A byte string. -/
abbrev Bytes := List Char

/-- Concatenation of a sequence of writes: the text as it appears in the sink. -/
def flat : List Bytes → Bytes
  | [] => []
  | b :: bs => b ++ flat bs

/-! ## The parts of the syntax-tree library the printer reads -/

/-- The operator tag `*hclsyntax.Operation`: a pointer that is compared with the
fifteen operation variables of the library.  `nil` is the nil pointer and
`other a` a pointer to any operation value that is none of the fifteen. -/
inductive Operation where
  | OpLogicalOr
  | OpLogicalAnd
  | OpLogicalNot
  | OpEqual
  | OpNotEqual
  | OpGreaterThan
  | OpGreaterThanOrEqual
  | OpLessThan
  | OpLessThanOrEqual
  | OpAdd
  | OpSubtract
  | OpMultiply
  | OpDivide
  | OpModulo
  | OpNegate
  | nil
  | other (addr : Nat)
  deriving DecidableEq, Repr

/-- The byte offsets of an `hcl.Range` (`Start.Byte`, `End.Byte`). -/
structure Range where
  Start : Int
  End : Int
  deriving DecidableEq, Repr

/-- Modelled from the spec: the byte-range slicing of the external syntax-tree
library (`hcl.Range.SliceBytes`) is not part of this repository.  It returns the
bytes of the buffer from offset `Start` up to offset `End`; an offset outside the
buffer is brought back to the nearest end of the buffer, and an `End` before
`Start` gives the empty slice. -/
def Range.SliceBytes (r : Range) (b : Bytes) : Bytes :=
  let len : Int := b.length
  let start := if r.Start < 0 then 0 else if r.Start > len then len else r.Start
  let stop := if r.End < 0 then 0 else if r.End > len then len else r.End
  let stop := if stop < start then start else stop
  (b.drop start.toNat).take (stop.toNat - start.toNat)

/-- The dynamic type of a syntax node together with the fields the printer
reads.  `Other` is any node type the type switch of `Enter` has no case for
(`*hclsyntax.Body`, `hclsyntax.Attributes`, `*hclsyntax.TemplateExpr`, ...);
`typeName` is what the verb `%T` prints for it. -/
inductive Kind where
  | Attribute (Name : Bytes)
  | Block (Typ : Bytes) (Labels : List Bytes)
  | LiteralValueExpr (SrcRange : Range)
  | ScopeTraversalExpr (SrcRange : Range)
  | RelativeTraversalExpr (TraversalSourceRange : Range)
  | FunctionCallExpr (Name : Bytes)
  | ForExpr (KeyVar : Bytes) (ValVar : Bytes)
  | AnonSymbolExpr
  | BinaryOpExpr (Op : Operation)
  | UnaryOpExpr (Op : Operation)
  | Other (typeName : Bytes)
  deriving DecidableEq, Repr

/-- A syntax node: its kind and fields, and the child nodes in the order in
which the library hands them to the walk. -/
inductive Node where
  | mk (kind : Kind) (children : List Node)

/-- The kind of a node. -/
def Node.kind : Node → Kind
  | .mk k _ => k

/-- The children of a node. -/
def Node.children : Node → List Node
  | .mk _ cs => cs

/-! ## `fmt` and `strings` -/

/-- What the verb `%T` prints for a node. -/
def fmtT (node : Node) : Bytes :=
  match node.kind with
  | .Attribute _ => "*hclsyntax.Attribute".toList
  | .Block _ _ => "*hclsyntax.Block".toList
  | .LiteralValueExpr _ => "*hclsyntax.LiteralValueExpr".toList
  | .ScopeTraversalExpr _ => "*hclsyntax.ScopeTraversalExpr".toList
  | .RelativeTraversalExpr _ => "*hclsyntax.RelativeTraversalExpr".toList
  | .FunctionCallExpr _ => "*hclsyntax.FunctionCallExpr".toList
  | .ForExpr _ _ => "*hclsyntax.ForExpr".toList
  | .AnonSymbolExpr => "*hclsyntax.AnonSymbolExpr".toList
  | .BinaryOpExpr _ => "*hclsyntax.BinaryOpExpr".toList
  | .UnaryOpExpr _ => "*hclsyntax.UnaryOpExpr".toList
  | .Other t => t

/-- The elements of a string slice separated by single spaces. -/
def fmtWords : List Bytes → Bytes
  | [] => []
  | [a] => a
  | a :: b :: rest => a ++ ' ' :: fmtWords (b :: rest)

/-- What the verb `%s` prints for a `[]string`: the elements separated by
spaces, inside square brackets. -/
def fmtS (labels : List Bytes) : Bytes :=
  '[' :: fmtWords labels ++ [']']

/-- The reason of a panic. -/
inductive Panic where
  /-- The `panic("leaf node should not have children")` of `Enter`. -/
  | leafHasChildren
  /-- The `panic(fmt.Sprintf("unknown operation type: %T", op))` of `opAsString`. -/
  | unknownOperation
  /-- The panic of `strings.Repeat` called with a negative count. -/
  | negativeRepeat
  deriving DecidableEq, Repr

/-- The call `strings.Repeat(" ", count)`: it panics when `count` is negative. -/
def Repeat (count : Int) : Option Bytes :=
  if count < 0 then none else some (List.replicate count.toNat ' ')

/-! ## The program -/

/-- The struct `walker`. -/
structure walker where
  indent : Int
  leaf : Bool
  file : Bytes
  deriving DecidableEq, Repr

/-- The result of running a piece of the program on a walker and an output:
either it returns, or it panics; in both cases with the walker and the output
as they are at that moment. -/
inductive Run where
  | done (w : walker) (stdout : List Bytes)
  | panic (why : Panic) (w : walker) (stdout : List Bytes)
  deriving DecidableEq, Repr

/-- The function `opAsString`; `none` is the panic of its default case. -/
def opAsString (op : Operation) : Option Bytes :=
  match op with
  | .OpLogicalOr => some "||".toList
  | .OpLogicalAnd => some "&&".toList
  | .OpLogicalNot => some "!".toList
  | .OpEqual => some "==".toList
  | .OpNotEqual => some "!=".toList
  | .OpGreaterThan => some ">".toList
  | .OpGreaterThanOrEqual => some ">=".toList
  | .OpLessThan => some "<".toList
  | .OpLessThanOrEqual => some "<=".toList
  | .OpAdd => some "+".toList
  | .OpSubtract => some "-".toList
  | .OpMultiply => some "*".toList
  | .OpDivide => some "/".toList
  | .OpModulo => some "%".toList
  | .OpNegate => some "-".toList
  | _ => none

/-- The last two statements of `Enter`: `fmt.Print("\n")` and `w.indent += 2`. -/
def enterTail (w : walker) (stdout : List Bytes) : Run :=
  .done { w with indent := w.indent + 2 } (stdout ++ ["\n".toList])

/-- The type switch of `Enter` followed by its last two statements. -/
def enterSwitch (w : walker) (node : Node) (stdout : List Bytes) : Run :=
  match node.kind with
  | .Attribute Name =>
    enterTail w (stdout ++ ['(' :: fmtT node ++ " \"".toList ++ Name ++ "\"".toList])
  | .Block Typ Labels =>
    enterTail w
      (stdout ++ ['(' :: fmtT node ++ " \"".toList ++ Typ ++ "\" ".toList ++ fmtS Labels])
  | .LiteralValueExpr SrcRange =>
    enterTail { w with leaf := true }
      (stdout ++ ['(' :: fmtT node ++ " \"".toList ++ SrcRange.SliceBytes w.file ++ "\")".toList])
  | .ScopeTraversalExpr SrcRange =>
    enterTail { w with leaf := true }
      (stdout ++ ['(' :: fmtT node ++ " \"".toList ++ SrcRange.SliceBytes w.file ++ "\")".toList])
  | .RelativeTraversalExpr TraversalSourceRange =>
    enterTail w
      (stdout ++
        ['(' :: fmtT node ++ " \"".toList ++ TraversalSourceRange.SliceBytes w.file ++ "\"".toList])
  | .FunctionCallExpr Name =>
    enterTail w (stdout ++ ['(' :: fmtT node ++ " \"".toList ++ Name ++ "\"".toList])
  | .ForExpr KeyVar ValVar =>
    let stdout := stdout ++ ['(' :: fmtT node]
    let stdout :=
      if KeyVar ≠ [] then stdout ++ [" key=\"".toList ++ KeyVar ++ "\"".toList] else stdout
    let stdout :=
      if ValVar ≠ [] then stdout ++ [" val=\"".toList ++ ValVar ++ "\"".toList] else stdout
    enterTail w stdout
  | .AnonSymbolExpr =>
    enterTail { w with leaf := true } (stdout ++ ['(' :: fmtT node ++ ")".toList])
  | .BinaryOpExpr Op =>
    match opAsString Op with
    | none => .panic .unknownOperation w stdout
    | some sym =>
      enterTail w (stdout ++ ['(' :: fmtT node ++ " \"".toList ++ sym ++ "\"".toList])
  | .UnaryOpExpr Op =>
    match opAsString Op with
    | none => .panic .unknownOperation w stdout
    | some sym =>
      enterTail w (stdout ++ ['(' :: fmtT node ++ " \"".toList ++ sym ++ "\"".toList])
  | .Other _ =>
    enterTail w (stdout ++ ['(' :: fmtT node])

/-- The method `walker.Enter`. -/
def Enter (w : walker) (node : Node) (stdout : List Bytes) : Run :=
  if w.leaf then .panic .leafHasChildren w stdout
  else
    match Repeat w.indent with
    | none => .panic .negativeRepeat w stdout
    | some spaces => enterSwitch w node (stdout ++ [spaces])

/-- The method `walker.Exit`. -/
def Exit (w : walker) (_node : Node) (stdout : List Bytes) : Run :=
  let w := { w with indent := w.indent - 2 }
  if w.leaf then .done { w with leaf := false } stdout
  else
    match Repeat w.indent with
    | none => .panic .negativeRepeat w stdout
    | some spaces => .done w (stdout ++ [spaces] ++ [")\n".toList])

mutual
/-- Modelled from the spec: the depth-first driver `hclsyntax.Walk(node, w)` that
`main` calls belongs to the external syntax-tree library and is not part of this
repository.  It is the traversal algorithm of the specification: `w.Enter(node)`,
then the walk of each child in order, then `w.Exit(node)`.  A panic ends the run
where it is raised. -/
def Walk (w : walker) (node : Node) (stdout : List Bytes) : Run :=
  match node with
  | .mk kind children =>
    match Enter w (.mk kind children) stdout with
    | .panic why w1 out1 => .panic why w1 out1
    | .done w1 out1 =>
      match walkChildNodes w1 children out1 with
      | .panic why w2 out2 => .panic why w2 out2
      | .done w2 out2 => Exit w2 (.mk kind children) out2
/-- The walk of the children of a node, in order. -/
def walkChildNodes (w : walker) (children : List Node) (stdout : List Bytes) : Run :=
  match children with
  | [] => .done w stdout
  | c :: rest =>
    match Walk w c stdout with
    | .panic why w1 out1 => .panic why w1 out1
    | .done w1 out1 => walkChildNodes w1 rest out1
end

/-- The walker `&walker{file: bytes}` that `main` passes to the walk. -/
def fresh (file : Bytes) : walker :=
  { indent := 0, leaf := false, file := file }

/-- The call `hclsyntax.Walk(node, &walker{file: bytes})` of `main`, on an empty
output. -/
def render (file : Bytes) (root : Node) : Run :=
  Walk (fresh file) root []

/-! ## The rendering as the specification describes it -/

/-- The number of bytes of indentation at nesting depth `d`: two spaces per
level. -/
def spaces (d : Nat) : Bytes :=
  List.replicate (2 * d) ' '

/-- The classification table of the specification: the leaf kinds are
LiteralValue, ScopeTraversal and AnonSymbolExpr. -/
def Kind.isLeaf : Kind → Bool
  | .LiteralValueExpr _ => true
  | .ScopeTraversalExpr _ => true
  | .AnonSymbolExpr => true
  | _ => false

/-- The fifteen operator tags of the operator table. -/
def tableTags : List Operation :=
  [.OpLogicalOr, .OpLogicalAnd, .OpLogicalNot, .OpEqual, .OpNotEqual, .OpGreaterThan,
   .OpGreaterThanOrEqual, .OpLessThan, .OpLessThanOrEqual, .OpAdd, .OpSubtract, .OpMultiply,
   .OpDivide, .OpModulo, .OpNegate]

/-- The operator symbol of the specification's table; the empty text stands for
a tag outside the table. -/
def symbol : Operation → Bytes
  | .OpLogicalOr => "||".toList
  | .OpLogicalAnd => "&&".toList
  | .OpLogicalNot => "!".toList
  | .OpEqual => "==".toList
  | .OpNotEqual => "!=".toList
  | .OpGreaterThan => ">".toList
  | .OpGreaterThanOrEqual => ">=".toList
  | .OpLessThan => "<".toList
  | .OpLessThanOrEqual => "<=".toList
  | .OpAdd => "+".toList
  | .OpSubtract => "-".toList
  | .OpMultiply => "*".toList
  | .OpDivide => "/".toList
  | .OpModulo => "%".toList
  | .OpNegate => "-".toList
  | _ => []

/-- The operator tag of a BinaryOpExpr or UnaryOpExpr node is in the table
(true for every other kind). -/
def Kind.opInTable : Kind → Bool
  | .BinaryOpExpr op => decide (op ∈ tableTags)
  | .UnaryOpExpr op => decide (op ∈ tableTags)
  | _ => true

/-- The opening fragment of a node, by the per-kind templates of the
specification. -/
def fragment (file : Bytes) (node : Node) : Bytes :=
  match node.kind with
  | .Attribute name => "(".toList ++ fmtT node ++ " \"".toList ++ name ++ "\"".toList
  | .Block type labels =>
    "(".toList ++ fmtT node ++ " \"".toList ++ type ++ "\" [".toList ++ fmtWords labels ++
      "]".toList
  | .LiteralValueExpr range =>
    "(".toList ++ fmtT node ++ " \"".toList ++ range.SliceBytes file ++ "\")".toList
  | .ScopeTraversalExpr range =>
    "(".toList ++ fmtT node ++ " \"".toList ++ range.SliceBytes file ++ "\")".toList
  | .RelativeTraversalExpr range =>
    "(".toList ++ fmtT node ++ " \"".toList ++ range.SliceBytes file ++ "\"".toList
  | .FunctionCallExpr name => "(".toList ++ fmtT node ++ " \"".toList ++ name ++ "\"".toList
  | .ForExpr key val =>
    "(".toList ++ fmtT node ++
      (if key = [] then [] else " key=\"".toList ++ key ++ "\"".toList) ++
      (if val = [] then [] else " val=\"".toList ++ val ++ "\"".toList)
  | .AnonSymbolExpr => "(".toList ++ fmtT node ++ ")".toList
  | .BinaryOpExpr op => "(".toList ++ fmtT node ++ " \"".toList ++ symbol op ++ "\"".toList
  | .UnaryOpExpr op => "(".toList ++ fmtT node ++ " \"".toList ++ symbol op ++ "\"".toList
  | .Other _ => "(".toList ++ fmtT node

mutual
/-- The reference rendering `R(n, d)` of a node at nesting depth `d`. -/
def R (file : Bytes) (node : Node) (d : Nat) : Bytes :=
  match node with
  | .mk kind children =>
    if kind.isLeaf then
      spaces d ++ fragment file (.mk kind children) ++ "\n".toList
    else
      spaces d ++ fragment file (.mk kind children) ++ "\n".toList ++
        RList file children (d + 1) ++ spaces d ++ ")".toList ++ "\n".toList
/-- The reference renderings of a list of siblings, one after the other. -/
def RList (file : Bytes) (nodes : List Node) (d : Nat) : Bytes :=
  match nodes with
  | [] => []
  | c :: rest => R file c d ++ RList file rest d
end

mutual
/-- No node of a leaf kind has a child, and every operator tag of a
BinaryOpExpr or UnaryOpExpr node is in the table. -/
def wellFormed (node : Node) : Bool :=
  match node with
  | .mk kind children =>
    (!kind.isLeaf || children.isEmpty) && kind.opInTable && wellFormedList children
/-- Every node of the list is well formed. -/
def wellFormedList (nodes : List Node) : Bool :=
  match nodes with
  | [] => true
  | c :: rest => wellFormed c && wellFormedList rest
end

mutual
/-- The number of nodes of a tree. -/
def countNodes (node : Node) : Nat :=
  match node with
  | .mk _ children => 1 + countNodesList children
/-- The number of nodes of a list of trees. -/
def countNodesList (nodes : List Node) : Nat :=
  match nodes with
  | [] => 0
  | c :: rest => countNodes c + countNodesList rest
end

mutual
/-- The number of nodes of a tree whose kind is not a leaf kind. -/
def countNotLeaf (node : Node) : Nat :=
  match node with
  | .mk kind children => (if kind.isLeaf then 0 else 1) + countNotLeafList children
/-- The number of nodes of a list of trees whose kind is not a leaf kind. -/
def countNotLeafList (nodes : List Node) : Nat :=
  match nodes with
  | [] => 0
  | c :: rest => countNotLeaf c + countNotLeafList rest
end

/-! ## The writes of a completed walk -/

/-- The `fmt.Printf` writes of the type switch of `Enter` on a node whose
operator tag, if it has one, is in the table. -/
def switchWrites (file : Bytes) (node : Node) : List Bytes :=
  match node.kind with
  | .ForExpr KeyVar ValVar =>
    ['(' :: fmtT node] ++
      (if KeyVar = [] then [] else [" key=\"".toList ++ KeyVar ++ "\"".toList]) ++
      (if ValVar = [] then [] else [" val=\"".toList ++ ValVar ++ "\"".toList])
  | _ => [fragment file node]

mutual
/-- The writes of the walk of a tree that starts at indentation `i`. -/
def walkWrites (file : Bytes) (node : Node) (i : Nat) : List Bytes :=
  match node with
  | .mk kind children =>
    [List.replicate i ' '] ++ switchWrites file (.mk kind children) ++ ["\n".toList] ++
      childWrites file children (i + 2) ++
      (if kind.isLeaf then [] else [List.replicate i ' ', ")\n".toList])
/-- The writes of the walk of a list of siblings at indentation `i`. -/
def childWrites (file : Bytes) (nodes : List Node) (i : Nat) : List Bytes :=
  match nodes with
  | [] => []
  | c :: rest => walkWrites file c i ++ childWrites file rest i
end


/-- The walker a run ends with: the one it returns, or the one at the panic. -/
def Run.walker : Run → walker
  | .done w _ => w
  | .panic _ w _ => w

/-- The output a run ends with: at its return, or at the panic. -/
def Run.stdout : Run → List Bytes
  | .done _ out => out
  | .panic _ _ out => out

mutual
/-- Some node of a leaf kind in the tree has at least one child. -/
def hasLeafWithChild (node : Node) : Bool :=
  match node with
  | .mk kind children => (kind.isLeaf && !children.isEmpty) || hasLeafWithChildList children
/-- Some tree of the list has a node of a leaf kind with a child. -/
def hasLeafWithChildList (nodes : List Node) : Bool :=
  match nodes with
  | [] => false
  | c :: rest => hasLeafWithChild c || hasLeafWithChildList rest
end

mutual
/-- Some BinaryOpExpr or UnaryOpExpr node of the tree carries an operator tag
that has no entry in the operator table. -/
def hasUnknownOperator (node : Node) : Bool :=
  match node with
  | .mk kind children => !kind.opInTable || hasUnknownOperatorList children
/-- Some tree of the list has a node with an operator tag outside the table. -/
def hasUnknownOperatorList (nodes : List Node) : Bool :=
  match nodes with
  | [] => false
  | c :: rest => hasUnknownOperator c || hasUnknownOperatorList rest
end

/-- One emission of the printer for a node: the line of its `Enter`, or the
closing marker of its `Exit`.  `depth` is the number of proper ancestors of the
node in the tree and `body` the writes that follow the indentation. -/
structure Emission where
  depth : Nat
  body : List Bytes
  deriving DecidableEq, Repr

/-- The writes of an emission: two spaces per level of depth, then its body. -/
def Emission.writes (e : Emission) : List Bytes :=
  spaces e.depth :: e.body

mutual
/-- The emissions for the nodes of a tree whose root has `d` proper ancestors, in
the order of the traversal: the opening line of the node, the emissions of its
children one level deeper, and for a node that is not of a leaf kind its
closing marker at the depth of the node itself. -/
def emissions (file : Bytes) (node : Node) (d : Nat) : List Emission :=
  match node with
  | .mk kind children =>
    [⟨d, switchWrites file (.mk kind children) ++ ["\n".toList]⟩] ++
      emissionsList file children (d + 1) ++
      (if kind.isLeaf then [] else [⟨d, [")\n".toList]⟩])
/-- The emissions of a list of siblings that have `d` proper ancestors each. -/
def emissionsList (file : Bytes) (nodes : List Node) (d : Nat) : List Emission :=
  match nodes with
  | [] => []
  | c :: rest => emissions file c d ++ emissionsList file rest d
end

/-- All the writes of a list of emissions, in order. -/
def emissionWrites : List Emission → List Bytes
  | [] => []
  | e :: es => e.writes ++ emissionWrites es

mutual
/-- No opening fragment of the tree contains a newline character. -/
def newlineFree (file : Bytes) (node : Node) : Bool :=
  match node with
  | .mk kind children =>
    decide ('\n' ∉ fragment file (.mk kind children)) && newlineFreeList file children
/-- No opening fragment of the trees of the list contains a newline character. -/
def newlineFreeList (file : Bytes) (nodes : List Node) : Bool :=
  match nodes with
  | [] => true
  | c :: rest => newlineFree file c && newlineFreeList file rest
end

/-! ## The calls of a walk -/

/-- One call of a callback of the walker by the driver, with the walker as it is
when the call is made. -/
inductive Call where
  | enter (w : walker) (node : Node)
  | exit (w : walker) (node : Node)

/-- The walker at the moment of the call. -/
def Call.walker : Call → walker
  | .enter w _ => w
  | .exit w _ => w

/-- The call is a call of `Exit`. -/
def Call.isExit : Call → Bool
  | .enter _ _ => false
  | .exit _ _ => true

mutual
/-- The walk of a tree together with the calls of `Enter` and `Exit` it makes, in
order.  The first component is the run of `Walk`. -/
def WalkCalls (w : walker) (node : Node) (stdout : List Bytes) : Run × List Call :=
  match node with
  | .mk kind children =>
    match Enter w (.mk kind children) stdout with
    | .panic why w1 out1 => (.panic why w1 out1, [.enter w (.mk kind children)])
    | .done w1 out1 =>
      let inner := walkChildNodesCalls w1 children out1
      match inner.1 with
      | .panic why w2 out2 => (.panic why w2 out2, .enter w (.mk kind children) :: inner.2)
      | .done w2 out2 =>
        (Exit w2 (.mk kind children) out2,
          .enter w (.mk kind children) :: inner.2 ++ [.exit w2 (.mk kind children)])
/-- The walk of the children of a node together with the calls it makes. -/
def walkChildNodesCalls (w : walker) (children : List Node) (stdout : List Bytes) :
    Run × List Call :=
  match children with
  | [] => (.done w stdout, [])
  | c :: rest =>
    let first := WalkCalls w c stdout
    match first.1 with
    | .panic why w1 out1 => (.panic why w1 out1, first.2)
    | .done w1 out1 =>
      let others := walkChildNodesCalls w1 rest out1
      (others.1, first.2 ++ others.2)
end

/-- The run in which `before` had been written to the output already. -/
def Run.after (before : List Bytes) : Run → Run
  | .done w out => .done w (before ++ out)
  | .panic why w out => .panic why w (before ++ out)

/-! ## The front door -/

/-- The functions of the operating system and of the syntax-tree library that
`main` calls; `none` is a read error, or diagnostics with errors.  `ParseConfig`
returns the body of the file and the bytes the file keeps (`file.Bytes`). -/
structure Library where
  ReadFile : Bytes → Option Bytes
  ParseConfig : Bytes → Bytes → Option (Node × Bytes)
  ParseExpression : Bytes → Option Node
  ParseTemplate : Bytes → Option Node

/-- What `main` prints to the standard error before it exits. -/
inductive Message where
  | usage
  | errorReadingFile
  | errorParsingFile
  | errorParsingExpression
  | errorParsingTemplate
  deriving DecidableEq, Repr

/-- How `main` ends: by `os.Exit` with a status, after a message on the standard
error, or with the run of the walk. -/
inductive Outcome where
  | exit (status : Nat) (message : Message)
  | walked (run : Run)
  deriving DecidableEq, Repr

/-- The function `usage`: it prints the usage and exits with status 2. -/
def usage : Outcome :=
  .exit 2 .usage

/-- The first branch of `main`, followed by the walk: the document mode. -/
def runDocument (lib : Library) (inFile : Bytes) : Outcome :=
  match lib.ReadFile inFile with
  | none => .exit 1 .errorReadingFile
  | some f =>
    match lib.ParseConfig f inFile with
    | none => .exit 1 .errorParsingFile
    | some (body, bytes) => .walked (Walk { indent := 0, leaf := false, file := bytes } body [])

/-- The second branch of `main`, followed by the walk: the expression mode. -/
def runExpression (lib : Library) (exprMode : Bytes) : Outcome :=
  match lib.ParseExpression exprMode with
  | none => .exit 1 .errorParsingExpression
  | some expr => .walked (Walk { indent := 0, leaf := false, file := exprMode } expr [])

/-- The third branch of `main`, followed by the walk: the template mode. -/
def runTemplate (lib : Library) (templateMode : Bytes) : Outcome :=
  match lib.ParseTemplate templateMode with
  | none => .exit 1 .errorParsingTemplate
  | some expr => .walked (Walk { indent := 0, leaf := false, file := templateMode } expr [])

/-- The function `main`, as a function of the values of the flags `-f`, `-e` and
`-t` (the three pointers that `flag.String` returns are never nil).  `usage`
ends the process, so the walk that follows the branches is not reached from
it. -/
def main (lib : Library) (inFile exprMode templateMode : Bytes) : Outcome :=
  if inFile ≠ [] then runDocument lib inFile
  else if exprMode ≠ [] then runExpression lib exprMode
  else if templateMode ≠ [] then runTemplate lib templateMode
  else usage

/-- The operator tags that can occur in a BinaryOpExpr: all of the table except
OpLogicalNot and OpNegate. -/
def binaryTags : List Operation :=
  [.OpLogicalOr, .OpLogicalAnd, .OpEqual, .OpNotEqual, .OpGreaterThan,
   .OpGreaterThanOrEqual, .OpLessThan, .OpLessThanOrEqual, .OpAdd, .OpSubtract, .OpMultiply,
   .OpDivide, .OpModulo]

/-- The operator tags that can occur in a UnaryOpExpr. -/
def unaryTags : List Operation :=
  [.OpLogicalNot, .OpNegate]

/-! ## Example inputs -/

/-- A LiteralValueExpr node with the source range from byte `a` to byte `b`. -/
def literal (a b : Int) : Node :=
  .mk (.LiteralValueExpr ⟨a, b⟩) []

/-- The source text of the expression `1 + 2 * 3`. -/
def sumFile : Bytes := "1 + 2 * 3".toList

/-- The syntax tree of the expression `1 + 2 * 3`. -/
def sumTree : Node :=
  .mk (.BinaryOpExpr .OpAdd)
    [literal 0 1, .mk (.BinaryOpExpr .OpMultiply) [literal 4 5, literal 8 9]]

/-- The writes of the rendering of `1 + 2 * 3`, one `fmt` call each. -/
def sumWrites : List Bytes :=
  ["".toList, "(*hclsyntax.BinaryOpExpr \"+\"".toList, "\n".toList,
   "  ".toList, "(*hclsyntax.LiteralValueExpr \"1\")".toList, "\n".toList,
   "  ".toList, "(*hclsyntax.BinaryOpExpr \"*\"".toList, "\n".toList,
   "    ".toList, "(*hclsyntax.LiteralValueExpr \"2\")".toList, "\n".toList,
   "    ".toList, "(*hclsyntax.LiteralValueExpr \"3\")".toList, "\n".toList,
   "  ".toList, ")\n".toList,
   "".toList, ")\n".toList]

/-- A ScopeTraversalExpr node (a leaf kind) that has been given a child. -/
def leafWithChild : Node :=
  .mk (.ScopeTraversalExpr ⟨0, 1⟩) [literal 4 5]

/-- The source text of a two-line template. -/
def twoLineFile : Bytes := "a\nb".toList

/-- The syntax tree of the two-line template: a template expression with one
literal part per line, the first of which holds the line break. -/
def twoLineTree : Node :=
  .mk (.Other "*hclsyntax.TemplateExpr".toList) [literal 0 2, literal 2 3]

/-- The writes of the rendering of the two-line template. -/
def twoLineWrites : List Bytes :=
  ["".toList, "(*hclsyntax.TemplateExpr".toList, "\n".toList,
   "  ".toList, "(*hclsyntax.LiteralValueExpr \"a\n\")".toList, "\n".toList,
   "  ".toList, "(*hclsyntax.LiteralValueExpr \"b\")".toList, "\n".toList,
   "".toList, ")\n".toList]

/-- A library that reads no file and parses every expression to the tree of
`1 + 2 * 3` and every template to the two-line template. -/
def stubLibrary : Library :=
  { ReadFile := fun _ => none
    ParseConfig := fun _ _ => none
    ParseExpression := fun _ => some sumTree
    ParseTemplate := fun _ => some twoLineTree }

/-- A walker one level deep with the pending-leaf flag clear. -/
def nestedWalker : walker :=
  { indent := 2, leaf := false, file := sumFile }

/-- A BinaryOpExpr node whose operator tag is the nil pointer. -/
def nilOpNode : Node :=
  .mk (.BinaryOpExpr .nil) [literal 0 1, literal 4 5]

/-- The text of a sequence of lines, each given by its indentation in spaces and
its content: the indentation, the content and a newline, line after line. -/
def layout : List (Nat × Bytes) → Bytes
  | [] => []
  | (indent, text) :: rest => List.replicate indent ' ' ++ text ++ '\n' :: layout rest

/-- The seven lines of the rendering of `1 + 2 * 3`. -/
def sumLines : List (Nat × Bytes) :=
  [(0, "(*hclsyntax.BinaryOpExpr \"+\"".toList),
   (2, "(*hclsyntax.LiteralValueExpr \"1\")".toList),
   (2, "(*hclsyntax.BinaryOpExpr \"*\"".toList),
   (4, "(*hclsyntax.LiteralValueExpr \"2\")".toList),
   (4, "(*hclsyntax.LiteralValueExpr \"3\")".toList),
   (2, ")".toList),
   (0, ")".toList)]

/-- The tree of the resource scenario: a Block of type `resource` with the labels
`aws_instance` and `foo`, whose only child is an Attribute named `name`, whose
only child is a LiteralValueExpr with the source range `range`. -/
def resourceTree (range : Range) : Node :=
  .mk (.Block "resource".toList ["aws_instance".toList, "foo".toList])
    [.mk (.Attribute "name".toList) [.mk (.LiteralValueExpr range) []]]

/-- The five lines of the rendering of the resource scenario, `r` being the raw
source text of the literal. -/
def resourceLines (r : Bytes) : List (Nat × Bytes) :=
  [(0, "(*hclsyntax.Block \"resource\" [aws_instance foo]".toList),
   (2, "(*hclsyntax.Attribute \"name\"".toList),
   (4, "(*hclsyntax.LiteralValueExpr \"".toList ++ r ++ "\")".toList),
   (2, ")".toList),
   (0, ")".toList)]

/-- A source text in which the bytes 42 to 45 are `bar`. -/
def resourceFile : Bytes :=
  "resource \"aws_instance\" \"foo\" \x7b\n  name = \"bar\"\n\x7d\n".toList

/-- The root of an empty document: a body that hands no child to the walk. -/
def emptyBody : Node :=
  .mk (.Other "*hclsyntax.Body".toList) []

/-- A ForExpr node that binds the key variable `k` and the value variable `v`. -/
def forNode : Node :=
  .mk (.ForExpr "k".toList "v".toList) []

/-! ## Lemmas on `Enter` and `Exit` -/

theorem Repeat_natCast (i : Nat) : Repeat (i : Int) = some (List.replicate i ' ') := by
  simp [Repeat]

theorem opAsString_of_mem {op : Operation} (h : op ∈ tableTags) :
    opAsString op = some (symbol op) := by
  simp [tableTags] at h
  rcases h with h | h | h | h | h | h | h | h | h | h | h | h | h | h | h <;> subst h <;> rfl

theorem opAsString_of_not_mem {op : Operation} (h : op ∉ tableTags) :
    opAsString op = none := by
  cases op <;> first | rfl | (exfalso; apply h; simp [tableTags])

theorem Enter_done (file : Bytes) (i : Nat) (kind : Kind) (children : List Node)
    (stdout : List Bytes) (hop : kind.opInTable = true) :
    Enter ⟨(i : Int), false, file⟩ (.mk kind children) stdout =
      .done ⟨(i : Int) + 2, kind.isLeaf, file⟩
        (stdout ++ ([List.replicate i ' '] ++ switchWrites file (.mk kind children) ++
          ["\n".toList])) := by
  cases kind
  case ForExpr k v =>
    by_cases hk : k = [] <;> by_cases hv : v = [] <;>
      simp [Enter, Repeat_natCast, enterSwitch, enterTail, Node.kind, switchWrites, Kind.isLeaf,
        hk, hv]
  case BinaryOpExpr op =>
    have h : op ∈ tableTags := by simpa [Kind.opInTable] using hop
    simp [Enter, Repeat_natCast, enterSwitch, enterTail, Node.kind, switchWrites, fragment,
      Kind.isLeaf, opAsString_of_mem h]
  case UnaryOpExpr op =>
    have h : op ∈ tableTags := by simpa [Kind.opInTable] using hop
    simp [Enter, Repeat_natCast, enterSwitch, enterTail, Node.kind, switchWrites, fragment,
      Kind.isLeaf, opAsString_of_mem h]
  all_goals
    simp [Enter, Repeat_natCast, enterSwitch, enterTail, Node.kind, switchWrites, fragment,
      Kind.isLeaf, fmtS]

theorem Enter_unknown (file : Bytes) (i : Nat) (kind : Kind) (children : List Node)
    (stdout : List Bytes) (hop : kind.opInTable = false) :
    Enter ⟨(i : Int), false, file⟩ (.mk kind children) stdout =
      .panic .unknownOperation ⟨(i : Int), false, file⟩ (stdout ++ [List.replicate i ' ']) := by
  cases kind
  case BinaryOpExpr op =>
    have h : op ∉ tableTags := by simpa [Kind.opInTable] using hop
    simp [Enter, Repeat_natCast, enterSwitch, Node.kind, opAsString_of_not_mem h]
  case UnaryOpExpr op =>
    have h : op ∉ tableTags := by simpa [Kind.opInTable] using hop
    simp [Enter, Repeat_natCast, enterSwitch, Node.kind, opAsString_of_not_mem h]
  all_goals simp [Kind.opInTable] at hop

theorem Enter_leaf (indent : Int) (file : Bytes) (node : Node) (stdout : List Bytes) :
    Enter ⟨indent, true, file⟩ node stdout =
      .panic .leafHasChildren ⟨indent, true, file⟩ stdout := by
  simp [Enter]

theorem Exit_done (file : Bytes) (i : Nat) (leaf : Bool) (node : Node) (stdout : List Bytes) :
    Exit ⟨(i : Int) + 2, leaf, file⟩ node stdout =
      .done ⟨(i : Int), false, file⟩
        (stdout ++ (if leaf then [] else [List.replicate i ' ', ")\n".toList])) := by
  cases leaf <;> simp [Exit, Repeat_natCast]

/-! ## The walk of a well-formed tree -/

mutual
theorem Walk_done (file : Bytes) :
    ∀ (node : Node) (i : Nat) (stdout : List Bytes), wellFormed node = true →
      Walk ⟨(i : Int), false, file⟩ node stdout =
        .done ⟨(i : Int), false, file⟩ (stdout ++ walkWrites file node i)
  | .mk kind children, i, stdout, h => by
    simp only [wellFormed, Bool.and_eq_true, Bool.or_eq_true, Bool.not_eq_true'] at h
    obtain ⟨⟨hleaf, hop⟩, hcs⟩ := h
    rw [Walk, Enter_done file i kind children stdout hop]
    cases hk : kind.isLeaf
    · have hw := walkChildNodes_done file children (i + 2) 
        (stdout ++ ([List.replicate i ' '] ++ switchWrites file (.mk kind children) ++
          ["\n".toList])) hcs
      simp only [Nat.cast_add, Nat.cast_ofNat] at hw
      simp only [hw, Exit_done, walkWrites, hk]
      simp
    · have hnil : children = [] := by
        rcases hleaf with h | h
        · simp [hk] at h
        · simpa using h
      subst hnil
      simp [walkChildNodes, Exit_done, walkWrites, childWrites, hk]
theorem walkChildNodes_done (file : Bytes) :
    ∀ (nodes : List Node) (i : Nat) (stdout : List Bytes), wellFormedList nodes = true →
      walkChildNodes ⟨(i : Int), false, file⟩ nodes stdout =
        .done ⟨(i : Int), false, file⟩ (stdout ++ childWrites file nodes i)
  | [], i, stdout, _ => by simp [walkChildNodes, childWrites]
  | c :: rest, i, stdout, h => by
    simp only [wellFormedList, Bool.and_eq_true] at h
    rw [walkChildNodes, Walk_done file c i stdout h.1]
    simp only [walkChildNodes_done file rest i _ h.2, childWrites]
    simp
end

mutual
theorem Walk_panic (file : Bytes) :
    ∀ (node : Node) (i : Nat) (stdout : List Bytes), wellFormed node = false →
      ∃ why w out, Walk ⟨(i : Int), false, file⟩ node stdout = .panic why w out ∧
        (why = .leafHasChildren ∨ why = .unknownOperation)
  | .mk kind children, i, stdout, h => by
    cases hop : kind.opInTable
    · exact ⟨_, _, _, by rw [Walk, Enter_unknown file i kind children stdout hop], Or.inr rfl⟩
    · rw [Walk, Enter_done file i kind children stdout hop]
      cases hk : kind.isLeaf
      · have hcs : wellFormedList children = false := by
          simpa [wellFormed, hop, hk] using h
        obtain ⟨why, w, out, hw, hwhy⟩ := walkChildNodes_panic file children (i + 2)
          (stdout ++ ([List.replicate i ' '] ++ switchWrites file (.mk kind children) ++
            ["\n".toList])) hcs
        simp only [Nat.cast_add, Nat.cast_ofNat] at hw
        exact ⟨why, w, out, by simp only [hw], hwhy⟩
      · cases children with
        | nil => simp [wellFormed, hop, hk, wellFormedList] at h
        | cons c rest =>
          cases c with
          | mk ck cc =>
            exact ⟨_, _, _, by simp only [walkChildNodes, Walk, Enter_leaf]; rfl, Or.inl rfl⟩
theorem walkChildNodes_panic (file : Bytes) :
    ∀ (nodes : List Node) (i : Nat) (stdout : List Bytes), wellFormedList nodes = false →
      ∃ why w out, walkChildNodes ⟨(i : Int), false, file⟩ nodes stdout = .panic why w out ∧
        (why = .leafHasChildren ∨ why = .unknownOperation)
  | [], i, stdout, h => by simp [wellFormedList] at h
  | c :: rest, i, stdout, h => by
    cases hc : wellFormed c
    · obtain ⟨why, w, out, hw, hwhy⟩ := Walk_panic file c i stdout hc
      exact ⟨why, w, out, by rw [walkChildNodes, hw], hwhy⟩
    · have hr : wellFormedList rest = false := by
        simpa [wellFormedList, hc] using h
      obtain ⟨why, w, out, hw, hwhy⟩ := walkChildNodes_panic file rest i
        (stdout ++ walkWrites file c i) hr
      exact ⟨why, w, out, by rw [walkChildNodes, Walk_done file c i stdout hc]; simp only [hw], hwhy⟩
end

/-! ## The writes of a completed walk and the reference rendering -/

theorem render_done_inv {file : Bytes} {root : Node} {w : walker} {stdout : List Bytes}
    (h : render file root = .done w stdout) :
    wellFormed root = true ∧ w = fresh file ∧ stdout = walkWrites file root 0 := by
  cases hwf : wellFormed root
  · obtain ⟨why, w1, out1, hp, _⟩ := Walk_panic file root 0 [] hwf
    have hp1 : render file root = .panic why w1 out1 := hp
    rw [h] at hp1
    cases hp1
  · have hd : render file root = .done (fresh file) ([] ++ walkWrites file root 0) :=
      Walk_done file root 0 [] hwf
    rw [h] at hd
    injection hd with h1 h2
    exact ⟨rfl, h1, by simpa using h2⟩

theorem flat_append (a b : List Bytes) : flat (a ++ b) = flat a ++ flat b := by
  induction a with
  | nil => rfl
  | cons x xs ih => simp [flat, ih]

theorem flat_switchWrites (file : Bytes) (node : Node) :
    flat (switchWrites file node) = fragment file node := by
  cases node with
  | mk kind children =>
    cases kind
    case ForExpr k v =>
      by_cases hk : k = [] <;> by_cases hv : v = [] <;>
        simp [switchWrites, fragment, Node.kind, flat, hk, hv]
    all_goals simp [switchWrites, Node.kind, flat]

theorem fragment_head (file : Bytes) (node : Node) :
    ∃ rest, fragment file node = '(' :: rest := by
  cases node with
  | mk kind children =>
    cases kind <;> exact ⟨_, by simp [fragment, Node.kind]; rfl⟩

mutual
theorem flat_walkWrites (file : Bytes) :
    ∀ (node : Node) (d : Nat), wellFormed node = true →
      flat (walkWrites file node (2 * d)) = R file node d
  | .mk kind children, d, h => by
    simp only [wellFormed, Bool.and_eq_true, Bool.or_eq_true, Bool.not_eq_true'] at h
    obtain ⟨⟨hleaf, _⟩, hcs⟩ := h
    have ih := flat_childWrites file children (d + 1) hcs
    rw [show 2 * (d + 1) = 2 * d + 2 by ring] at ih
    rw [walkWrites, R]
    cases hk : kind.isLeaf
    · simp [flat_append, flat_switchWrites, flat, spaces, ih]
    · have hnil : children = [] := by
        rcases hleaf with h | h
        · simp [hk] at h
        · simpa using h
      subst hnil
      simp [flat_append, flat_switchWrites, flat, spaces, childWrites]
theorem flat_childWrites (file : Bytes) :
    ∀ (nodes : List Node) (d : Nat), wellFormedList nodes = true →
      flat (childWrites file nodes (2 * d)) = RList file nodes d
  | [], d, _ => by simp [childWrites, RList, flat]
  | c :: rest, d, h => by
    simp only [wellFormedList, Bool.and_eq_true] at h
    simp [childWrites, RList, flat_append, flat_walkWrites file c d h.1,
      flat_childWrites file rest d h.2]
end

/-- C1 (refinement): on a tree in which no node of a leaf kind has a child and
every operator tag is in the table, the walk from the fresh walker returns, in
the fresh state again, and the text it has written is the reference rendering
`R(root, 0)`. -/
theorem render_refines_R (file : Bytes) (root : Node) (h : wellFormed root = true) :
    ∃ stdout, render file root = .done (fresh file) stdout ∧ flat stdout = R file root 0 := by
  refine ⟨walkWrites file root 0, ?_, ?_⟩
  · have hd : render file root = .done (fresh file) ([] ++ walkWrites file root 0) :=
      Walk_done file root 0 [] h
    simpa using hd
  · exact flat_walkWrites file root 0 h

/-- Witness of C1 on the tree of `1 + 2 * 3`. -/
theorem render_refines_R_witness :
    wellFormed sumTree = true ∧
      ∃ stdout, render sumFile sumTree = .done (fresh sumFile) stdout ∧
        flat stdout = R sumFile sumTree 0 :=
  ⟨by decide, render_refines_R sumFile sumTree (by decide)⟩

/-! ## Balance -/

theorem replicate_ne_closing (i : Nat) : List.replicate i ' ' ≠ [')', '\n'] := by
  cases i <;> simp [List.replicate]

theorem count_closing_switchWrites (file : Bytes) (node : Node) :
    (switchWrites file node).count [')', '\n'] = 0 := by
  cases node with
  | mk kind children =>
    cases kind
    case ForExpr k v =>
      by_cases hk : k = [] <;> by_cases hv : v = [] <;>
        simp [switchWrites, Node.kind, List.count_cons, hk, hv]
    all_goals simp [switchWrites, fragment, Node.kind, List.count_cons]

mutual
theorem count_closing_walkWrites (file : Bytes) :
    ∀ (node : Node) (i : Nat),
      (walkWrites file node i).count [')', '\n'] = countNotLeaf node
  | .mk kind children, i => by
    have ih := count_closing_childWrites file children (i + 2)
    have hr := replicate_ne_closing i
    rw [walkWrites, countNotLeaf]
    cases hk : kind.isLeaf <;>
      simp [List.count_append, List.count_cons, count_closing_switchWrites, ih, hr]
    omega
theorem count_closing_childWrites (file : Bytes) :
    ∀ (nodes : List Node) (i : Nat),
      (childWrites file nodes i).count [')', '\n'] = countNotLeafList nodes
  | [], i => by simp [childWrites, countNotLeafList]
  | c :: rest, i => by
    simp [childWrites, countNotLeafList, List.count_append, count_closing_walkWrites file c i,
      count_closing_childWrites file rest i]
end

/-- C2 (balance): when the rendering of a tree completes, the number of closing
markers written (the write `")\n"` that `Exit` makes after its indentation; no
write of `Enter` is equal to it) is the number of nodes of the tree whose kind
is not a leaf kind. -/
theorem closing_markers_balance (file : Bytes) (root : Node) (w : walker)
    (stdout : List Bytes) (h : render file root = .done w stdout) :
    stdout.count ")\n".toList = countNotLeaf root := by
  obtain ⟨_, _, hout⟩ := render_done_inv h
  rw [hout]
  exact count_closing_walkWrites file root 0

/-- Witness of C2 on the tree of `1 + 2 * 3`: two closing markers for its two
BinaryOpExpr nodes. -/
theorem closing_markers_balance_witness :
    render sumFile sumTree = .done (fresh sumFile) sumWrites ∧
      sumWrites.count ")\n".toList = countNotLeaf sumTree :=
  ⟨by decide, closing_markers_balance sumFile sumTree (fresh sumFile) sumWrites (by decide)⟩

/-! ## Depth -/

theorem emissionWrites_append (a b : List Emission) :
    emissionWrites (a ++ b) = emissionWrites a ++ emissionWrites b := by
  induction a with
  | nil => rfl
  | cons x xs ih => simp [emissionWrites, ih]

mutual
theorem emissionWrites_emissions (file : Bytes) :
    ∀ (node : Node) (d : Nat),
      emissionWrites (emissions file node d) = walkWrites file node (2 * d)
  | .mk kind children, d => by
    have ih := emissionWrites_emissionsList file children (d + 1)
    rw [show 2 * (d + 1) = 2 * d + 2 by ring] at ih
    rw [emissions, walkWrites]
    cases hk : kind.isLeaf <;>
      simp [emissionWrites_append, emissionWrites, Emission.writes, spaces, ih]
theorem emissionWrites_emissionsList (file : Bytes) :
    ∀ (nodes : List Node) (d : Nat),
      emissionWrites (emissionsList file nodes d) = childWrites file nodes (2 * d)
  | [], d => by simp [emissionsList, childWrites, emissionWrites]
  | c :: rest, d => by
    simp [emissionsList, childWrites, emissionWrites_append, emissionWrites_emissions file c d,
      emissionWrites_emissionsList file rest d]
end

mutual
theorem emissions_body_head (file : Bytes) :
    ∀ (node : Node) (d : Nat), ∀ e ∈ emissions file node d,
      ∃ c rest, flat e.body = c :: rest ∧ c ≠ ' '
  | .mk kind children, d => by
    intro e he
    have ih := emissions_body_head_list file children (d + 1)
    obtain ⟨tl, htl⟩ := fragment_head file (.mk kind children)
    rw [emissions] at he
    simp only [List.mem_append, List.mem_singleton] at he
    rcases he with (he | he) | he
    · subst he
      exact ⟨'(', tl ++ ['\n'], by simp [flat_append, flat_switchWrites, htl, flat], by decide⟩
    · exact ih e he
    · cases hk : kind.isLeaf
      · simp only [hk, Bool.false_eq_true, if_false, List.mem_singleton] at he
        subst he
        exact ⟨')', ['\n'], by simp [flat], by decide⟩
      · simp [hk] at he
theorem emissions_body_head_list (file : Bytes) :
    ∀ (nodes : List Node) (d : Nat), ∀ e ∈ emissionsList file nodes d,
      ∃ c rest, flat e.body = c :: rest ∧ c ≠ ' '
  | [], d => by simp [emissionsList]
  | c :: rest, d => by
    intro e he
    rw [emissionsList] at he
    rcases List.mem_append.1 he with he | he
    · exact emissions_body_head file c d e he
    · exact emissions_body_head_list file rest d e he
end

/-- C3 (depth correctness): when the rendering of a tree completes, its writes
are, in order, those of the emissions of the tree: for the `Enter` line of each
node and for the closing marker of each node that is not of a leaf kind, first
`2 * d` spaces, `d` being the number of proper ancestors of the node, then a
body that starts with a byte that is not a space (an opening or a closing
parenthesis); the closing marker of a node is emitted at the depth of its
opening line. -/
theorem indentation_is_twice_depth (file : Bytes) (root : Node) (w : walker)
    (stdout : List Bytes) (h : render file root = .done w stdout) :
    stdout = emissionWrites (emissions file root 0) ∧
      (∀ e ∈ emissions file root 0,
        flat e.writes = List.replicate (2 * e.depth) ' ' ++ flat e.body ∧
          ∃ c rest, flat e.body = c :: rest ∧ c ≠ ' ') := by
  obtain ⟨_, _, hout⟩ := render_done_inv h
  refine ⟨?_, fun e he => ⟨?_, emissions_body_head file root 0 e he⟩⟩
  · rw [hout, emissionWrites_emissions]
  · simp [Emission.writes, flat, spaces]

/-- Witness of C3 on the tree of `1 + 2 * 3`. -/
theorem indentation_is_twice_depth_witness :
    render sumFile sumTree = .done (fresh sumFile) sumWrites ∧
      sumWrites = emissionWrites (emissions sumFile sumTree 0) ∧
      (∀ e ∈ emissions sumFile sumTree 0,
        flat e.writes = List.replicate (2 * e.depth) ' ' ++ flat e.body ∧
          ∃ c rest, flat e.body = c :: rest ∧ c ≠ ' ') :=
  ⟨by decide, indentation_is_twice_depth sumFile sumTree (fresh sumFile) sumWrites (by decide)⟩

/-! ## Failure -/

mutual
theorem wellFormed_eq (node : Node) :
    wellFormed node = !(hasLeafWithChild node || hasUnknownOperator node) := by
  match node with
  | .mk kind children =>
    have ih := wellFormedList_eq children
    rw [wellFormed, hasLeafWithChild, hasUnknownOperator, ih]
    cases kind.isLeaf <;> cases children.isEmpty <;> cases kind.opInTable <;>
      cases hasLeafWithChildList children <;> cases hasUnknownOperatorList children <;> rfl
theorem wellFormedList_eq (nodes : List Node) :
    wellFormedList nodes = !(hasLeafWithChildList nodes || hasUnknownOperatorList nodes) := by
  match nodes with
  | [] => rfl
  | c :: rest =>
    have ih1 := wellFormed_eq c
    have ih2 := wellFormedList_eq rest
    rw [wellFormedList, hasLeafWithChildList, hasUnknownOperatorList, ih1, ih2]
    cases hasLeafWithChild c <;> cases hasUnknownOperator c <;>
      cases hasLeafWithChildList rest <;> cases hasUnknownOperatorList rest <;> rfl
end

/-- C4 (failure modes): the rendering from the fresh walker panics if and only if
the tree has a node of a leaf kind with at least one child or a BinaryOpExpr /
UnaryOpExpr node whose operator tag is outside the table; on every other tree it
returns; and the panic is never a third one: it is the panic of `Enter` on a
pending leaf or the panic of `opAsString`. -/
theorem render_panics_iff (file : Bytes) (root : Node) :
    ((∃ why w stdout, render file root = .panic why w stdout) ↔
        (hasLeafWithChild root = true ∨ hasUnknownOperator root = true)) ∧
      ((∃ stdout, render file root = .done (fresh file) stdout) ↔
        ¬ (hasLeafWithChild root = true ∨ hasUnknownOperator root = true)) ∧
      (∀ why w stdout, render file root = .panic why w stdout →
        why = .leafHasChildren ∨ why = .unknownOperation) := by
  have hwf := wellFormed_eq root
  cases hbad : (hasLeafWithChild root || hasUnknownOperator root)
  · rw [hbad] at hwf
    have hd : render file root = .done (fresh file) ([] ++ walkWrites file root 0) :=
      Walk_done file root 0 [] hwf
    have hnot : ¬ (hasLeafWithChild root = true ∨ hasUnknownOperator root = true) := by
      simpa using hbad
    refine ⟨⟨?_, fun h => absurd h hnot⟩, ⟨fun _ => hnot, fun _ => ⟨_, hd⟩⟩, ?_⟩
    · rintro ⟨why, w, out, hp⟩
      rw [hd] at hp
      cases hp
    · intro why w out hp
      rw [hd] at hp
      cases hp
  · rw [hbad] at hwf
    obtain ⟨why, w1, out1, hp, hwhy⟩ := Walk_panic file root 0 [] hwf
    have hp1 : render file root = .panic why w1 out1 := hp
    have hyes : hasLeafWithChild root = true ∨ hasUnknownOperator root = true := by
      simpa using hbad
    refine ⟨⟨fun _ => hyes, fun _ => ⟨why, w1, out1, hp1⟩⟩, ⟨?_, fun h => absurd hyes h⟩, ?_⟩
    · rintro ⟨out, hd⟩
      rw [hp1] at hd
      cases hd
    · intro why2 w2 out2 hp2
      rw [hp1] at hp2
      cases hp2
      exact hwhy

/-- Witness of C4: the tree of `1 + 2 * 3` renders, a BinaryOpExpr with a nil operator
tag and a ScopeTraversalExpr with a child do not. -/
theorem render_panics_iff_witness :
    (∃ stdout, render sumFile sumTree = .done (fresh sumFile) stdout) ∧
      (∃ why w stdout, render sumFile nilOpNode = .panic why w stdout) ∧
      (∃ why w stdout, render sumFile leafWithChild = .panic why w stdout) :=
  ⟨(render_panics_iff sumFile sumTree).2.1.2 (by decide),
    (render_panics_iff sumFile nilOpNode).1.2 (by decide),
    (render_panics_iff sumFile leafWithChild).1.2 (by decide)⟩

/-! ## Leaves -/

theorem opInTable_of_isLeaf {kind : Kind} (h : kind.isLeaf = true) : kind.opInTable = true := by
  cases kind <;> first | rfl | simp [Kind.isLeaf] at h

theorem fragment_getLast_of_isLeaf (file : Bytes) (node : Node) (h : node.kind.isLeaf = true) :
    (fragment file node).getLast? = some ')' := by
  have key : ∀ (pre : Bytes), (pre ++ [')']).getLast? = some ')' := by
    intro pre
    simp
  cases node with
  | mk kind children =>
    cases kind <;> simp [Node.kind, Kind.isLeaf] at h
    case LiteralValueExpr r =>
      have := key ("(".toList ++ fmtT (.mk (.LiteralValueExpr r) children) ++ " \"".toList ++
        r.SliceBytes file ++ "\"".toList)
      simpa [fragment, Node.kind] using this
    case ScopeTraversalExpr r =>
      have := key ("(".toList ++ fmtT (.mk (.ScopeTraversalExpr r) children) ++ " \"".toList ++
        r.SliceBytes file ++ "\"".toList)
      simpa [fragment, Node.kind] using this
    case AnonSymbolExpr =>
      have := key ("(".toList ++ fmtT (.mk .AnonSymbolExpr children))
      simpa [fragment, Node.kind] using this

theorem switchWrites_of_isLeaf (file : Bytes) (node : Node) (h : node.kind.isLeaf = true) :
    switchWrites file node = [fragment file node] := by
  cases node with
  | mk kind children =>
    cases kind <;> simp [Node.kind, Kind.isLeaf] at h <;> rfl

/-- C5 (leaf self-closure): for a node of a leaf kind and a walker with the
pending-leaf flag clear (and a depth that is not negative), `Enter` writes the
indentation, the opening fragment, which ends in `)`, and the newline, and the
`Exit` that follows writes nothing and gives back the walker as it was; and a
completed walk of such a node has written this one line only, no closing
marker. -/
theorem leaf_self_closure (w : walker) (node : Node) (stdout : List Bytes)
    (hkind : node.kind.isLeaf = true) (hflag : w.leaf = false) (hdepth : 0 ≤ w.indent) :
    Enter w node stdout =
        .done { w with indent := w.indent + 2, leaf := true }
          (stdout ++ [List.replicate w.indent.toNat ' ', fragment w.file node, "\n".toList]) ∧
      (fragment w.file node).getLast? = some ')' ∧
      (∀ out, Exit { w with indent := w.indent + 2, leaf := true } node out = .done w out) ∧
      (∀ w1 out1, Walk w node stdout = .done w1 out1 →
        w1 = w ∧
          out1 = stdout ++
            [List.replicate w.indent.toNat ' ', fragment w.file node, "\n".toList]) := by
  obtain ⟨indent, leaf, file⟩ := w
  obtain ⟨kind, children⟩ := node
  simp only at hflag hdepth
  simp only [Node.kind] at hkind
  obtain ⟨i, rfl⟩ := Int.eq_ofNat_of_zero_le hdepth
  subst hflag
  have hsw := switchWrites_of_isLeaf file (.mk kind children) hkind
  have hE := Enter_done file i kind children stdout (opInTable_of_isLeaf hkind)
  rw [hkind, hsw] at hE
  have hX : ∀ out, Exit ⟨(i : Int) + 2, true, file⟩ (.mk kind children) out =
      .done ⟨(i : Int), false, file⟩ out := by
    intro out
    simpa using Exit_done file i true (.mk kind children) out
  refine ⟨by simpa using hE, fragment_getLast_of_isLeaf file _ hkind, hX, ?_⟩
  intro w1 out1 hW
  cases children with
  | nil =>
    rw [Walk, hE] at hW
    simp only [walkChildNodes, hX] at hW
    injection hW with h1 h2
    exact ⟨h1.symm, by simpa using h2.symm⟩
  | cons c rest =>
    obtain ⟨ck, cc⟩ := c
    rw [Walk, hE] at hW
    simp only [walkChildNodes, Walk, Enter_leaf] at hW
    cases hW

/-- Witness of C5: a LiteralValueExpr entered one level deep. -/
theorem leaf_self_closure_witness :
    (literal 0 1).kind.isLeaf = true ∧ nestedWalker.leaf = false ∧ 0 ≤ nestedWalker.indent ∧
      Enter nestedWalker (literal 0 1) [] =
        .done { nestedWalker with indent := 4, leaf := true }
          ["  ".toList, "(*hclsyntax.LiteralValueExpr \"1\")".toList, "\n".toList] ∧
      Exit { nestedWalker with indent := 4, leaf := true } (literal 0 1)
          ["  ".toList, "(*hclsyntax.LiteralValueExpr \"1\")".toList, "\n".toList] =
        .done nestedWalker
          ["  ".toList, "(*hclsyntax.LiteralValueExpr \"1\")".toList, "\n".toList] :=
  have h := leaf_self_closure nestedWalker (literal 0 1) [] (by decide) (by decide) (by decide)
  ⟨by decide, by decide, by decide, h.1, h.2.2.1 _⟩

/-- C6 (static leaf classification): for every node, whatever its fields and its
children, every byte buffer and every walker with the pending-leaf flag clear
(and a depth that is not negative), the flag after `Enter` is set exactly when
the kind of the node is LiteralValueExpr, ScopeTraversalExpr or AnonSymbolExpr;
and `Enter` returns, two levels of indentation deeper, whenever the operator tag
of the node is in the table. -/
theorem leaf_flag_is_static (w : walker) (node : Node) (stdout : List Bytes)
    (hflag : w.leaf = false) (hdepth : 0 ≤ w.indent) :
    (Enter w node stdout).walker.leaf = node.kind.isLeaf ∧
      (node.kind.isLeaf = true ↔
        (∃ r, node.kind = .LiteralValueExpr r) ∨ (∃ r, node.kind = .ScopeTraversalExpr r) ∨
          node.kind = .AnonSymbolExpr) ∧
      (node.kind.opInTable = true →
        (Enter w node stdout).walker =
          { w with indent := w.indent + 2, leaf := node.kind.isLeaf } ∧
        ∃ out, Enter w node stdout = .done (Enter w node stdout).walker out) := by
  obtain ⟨indent, leaf, file⟩ := w
  obtain ⟨kind, children⟩ := node
  simp only at hflag hdepth
  obtain ⟨i, rfl⟩ := Int.eq_ofNat_of_zero_le hdepth
  subst hflag
  refine ⟨?_, ?_, ?_⟩
  · cases hop : kind.opInTable
    · rw [Enter_unknown file i kind children stdout hop]
      cases kind <;> first | rfl | simp [Kind.opInTable] at hop
    · rw [Enter_done file i kind children stdout hop]
      rfl
  · cases kind <;> simp [Node.kind, Kind.isLeaf]
  · intro hop
    rw [Enter_done file i kind children stdout hop]
    exact ⟨rfl, _, rfl⟩

/-- Witness of C6: entering a LiteralValueExpr sets the flag, entering a
BinaryOpExpr leaves it clear. -/
theorem leaf_flag_is_static_witness :
    (Enter nestedWalker (literal 0 1) []).walker.leaf = true ∧
      (Enter nestedWalker sumTree []).walker.leaf = false :=
  ⟨(leaf_flag_is_static nestedWalker (literal 0 1) [] (by decide) (by decide)).1,
    (leaf_flag_is_static nestedWalker sumTree [] (by decide) (by decide)).1⟩

/-! ## The operator table -/

/-- C7 (operator coverage): `opAsString` returns on each of the fifteen operator
tags, with the symbol of the table; none is missing. -/
theorem opAsString_table :
    opAsString .OpLogicalOr = some "||".toList ∧
      opAsString .OpLogicalAnd = some "&&".toList ∧
      opAsString .OpLogicalNot = some "!".toList ∧
      opAsString .OpEqual = some "==".toList ∧
      opAsString .OpNotEqual = some "!=".toList ∧
      opAsString .OpGreaterThan = some ">".toList ∧
      opAsString .OpGreaterThanOrEqual = some ">=".toList ∧
      opAsString .OpLessThan = some "<".toList ∧
      opAsString .OpLessThanOrEqual = some "<=".toList ∧
      opAsString .OpAdd = some "+".toList ∧
      opAsString .OpSubtract = some "-".toList ∧
      opAsString .OpMultiply = some "*".toList ∧
      opAsString .OpDivide = some "/".toList ∧
      opAsString .OpModulo = some "%".toList ∧
      opAsString .OpNegate = some "-".toList ∧
      tableTags.length = 15 ∧ tableTags.Nodup ∧
      ∀ op ∈ tableTags, ∃ sym, opAsString op = some sym ∧ sym ≠ [] := by
  refine ⟨rfl, rfl, rfl, rfl, rfl, rfl, rfl, rfl, rfl, rfl, rfl, rfl, rfl, rfl, rfl, rfl,
    by decide, ?_⟩
  intro op hop
  simp [tableTags] at hop
  rcases hop with h | h | h | h | h | h | h | h | h | h | h | h | h | h | h <;> subst h <;>
    exact ⟨_, rfl, by decide⟩

theorem Enter_negative (indent : Int) (file : Bytes) (node : Node) (stdout : List Bytes)
    (h : indent < 0) :
    Enter ⟨indent, false, file⟩ node stdout =
      .panic .negativeRepeat ⟨indent, false, file⟩ stdout := by
  simp [Enter, Repeat, h]

theorem Enter_panic_unknown_inv {w : walker} {node : Node} {stdout : List Bytes} {w1 : walker}
    {out1 : List Bytes} (h : Enter w node stdout = .panic .unknownOperation w1 out1) :
    w.leaf = false ∧ 0 ≤ w.indent ∧ node.kind.opInTable = false ∧ w1 = w ∧
      out1 = stdout ++ [List.replicate w.indent.toNat ' '] := by
  obtain ⟨indent, leaf, file⟩ := w
  obtain ⟨kind, children⟩ := node
  cases leaf
  · by_cases hneg : indent < 0
    · simp [Enter, Repeat, hneg] at h
    · obtain ⟨i, rfl⟩ := Int.eq_ofNat_of_zero_le (not_lt.1 hneg)
      cases hop : kind.opInTable
      · rw [Enter_unknown file i kind children stdout hop] at h
        injection h with _ h2 h3
        exact ⟨rfl, by simp, hop, h2.symm, by simpa using h3.symm⟩
      · rw [Enter_done file i kind children stdout hop] at h
        cases h
  · rw [Enter_leaf] at h
    cases h

/-- C8 (operator failure): `opAsString` fails exactly on the tags that are not
among the fifteen of the table, the nil tag included; `Enter` on a BinaryOpExpr
or a UnaryOpExpr node with such a tag panics in every state, with the panic of
`opAsString` when the pending-leaf flag is clear and the depth is not negative;
and `Enter` on a node of any other kind never ends in the panic of
`opAsString`. -/
theorem opAsString_fails_iff :
    (∀ op, opAsString op = none ↔ op ∉ tableTags) ∧
      opAsString .nil = none ∧
      (∀ op, op ∉ tableTags → ∀ w children stdout,
        (∃ why w1 out1, Enter w (.mk (.BinaryOpExpr op) children) stdout = .panic why w1 out1) ∧
        (∃ why w1 out1, Enter w (.mk (.UnaryOpExpr op) children) stdout = .panic why w1 out1) ∧
        (w.leaf = false → 0 ≤ w.indent →
          (∃ out1, Enter w (.mk (.BinaryOpExpr op) children) stdout =
            .panic .unknownOperation w out1) ∧
          (∃ out1, Enter w (.mk (.UnaryOpExpr op) children) stdout =
            .panic .unknownOperation w out1))) ∧
      (∀ w node stdout, (∀ op, node.kind ≠ .BinaryOpExpr op ∧ node.kind ≠ .UnaryOpExpr op) →
        ∀ w1 out1, Enter w node stdout ≠ .panic .unknownOperation w1 out1) := by
  refine ⟨?_, rfl, ?_, ?_⟩
  · intro op
    constructor
    · intro h hmem
      rw [opAsString_of_mem hmem] at h
      cases h
    · exact opAsString_of_not_mem
  · intro op hop w children stdout
    obtain ⟨indent, leaf, file⟩ := w
    have hb : (Kind.BinaryOpExpr op).opInTable = false := by simpa [Kind.opInTable] using hop
    have hu : (Kind.UnaryOpExpr op).opInTable = false := by simpa [Kind.opInTable] using hop
    have key : ∀ kind : Kind, kind.opInTable = false →
        (∃ why w1 out1, Enter ⟨indent, leaf, file⟩ (.mk kind children) stdout =
          .panic why w1 out1) ∧
        (leaf = false → 0 ≤ indent →
          ∃ out1, Enter ⟨indent, leaf, file⟩ (.mk kind children) stdout =
            .panic .unknownOperation ⟨indent, leaf, file⟩ out1) := by
      intro kind hk
      cases leaf
      · by_cases hneg : indent < 0
        · exact ⟨⟨_, _, _, Enter_negative indent file _ stdout hneg⟩,
            fun _ h => absurd hneg (not_lt.2 h)⟩
        · obtain ⟨i, rfl⟩ := Int.eq_ofNat_of_zero_le (not_lt.1 hneg)
          exact ⟨⟨_, _, _, Enter_unknown file i kind children stdout hk⟩,
            fun _ _ => ⟨_, Enter_unknown file i kind children stdout hk⟩⟩
      · exact ⟨⟨_, _, _, Enter_leaf indent file _ stdout⟩, fun h => by cases h⟩
    exact ⟨(key _ hb).1, (key _ hu).1, fun h1 h2 => ⟨(key _ hb).2 h1 h2, (key _ hu).2 h1 h2⟩⟩
  · intro w node stdout hkind w1 out1 h
    obtain ⟨_, _, hop, _, _⟩ := Enter_panic_unknown_inv h
    obtain ⟨kind, children⟩ := node
    cases kind <;> simp [Node.kind, Kind.opInTable] at hop hkind

/-- Witness of C8 on a BinaryOpExpr node whose operator tag is nil. -/
theorem opAsString_fails_iff_witness :
    Operation.nil ∉ tableTags ∧
      ∃ out1, Enter nestedWalker nilOpNode [] = .panic .unknownOperation nestedWalker out1 :=
  ⟨by decide,
    ((opAsString_fails_iff.2.2.1 .nil (by decide) nestedWalker
      [literal 0 1, literal 4 5] []).2.2 (by decide) (by decide)).1⟩

/-! ## What a failing `Enter` has done -/

/-- C9, counterexample: one level deep, `Enter` on a BinaryOpExpr node whose
operator tag is nil panics in `opAsString` after it has written the two spaces
of the indentation. -/
theorem failing_Enter_has_written :
    Enter nestedWalker nilOpNode [] =
        .panic .unknownOperation nestedWalker ["  ".toList] ∧
      flat ["  ".toList] ≠ flat [] := by
  decide

/-- C9, amended: a failing `Enter` leaves the depth and the flag as they were
and writes no part of the fragment.  When it fails because the pending-leaf flag
is set it has written nothing; when it fails because the operator tag of the
node is outside the table it has written the indentation, one space per unit of
depth, and nothing else.  (A negative depth, which no rendering reaches, fails
in `strings.Repeat` with nothing written.) -/
theorem failing_Enter_effect (w : walker) (node : Node) (stdout : List Bytes) (why : Panic)
    (w1 : walker) (out1 : List Bytes) (h : Enter w node stdout = .panic why w1 out1) :
    w1 = w ∧
      ((why = .leafHasChildren ∧ w.leaf = true ∧ out1 = stdout) ∨
        (why = .negativeRepeat ∧ w.leaf = false ∧ w.indent < 0 ∧ out1 = stdout) ∨
        (why = .unknownOperation ∧ w.leaf = false ∧ 0 ≤ w.indent ∧
          node.kind.opInTable = false ∧
          out1 = stdout ++ [List.replicate w.indent.toNat ' '] ∧
          flat out1 = flat stdout ++ List.replicate w.indent.toNat ' ')) := by
  obtain ⟨indent, leaf, file⟩ := w
  cases leaf
  · by_cases hneg : indent < 0
    · rw [Enter_negative indent file node stdout hneg] at h
      injection h with h1 h2 h3
      exact ⟨h2.symm, Or.inr (Or.inl ⟨h1.symm, rfl, hneg, h3.symm⟩)⟩
    · cases why
      · exfalso
        obtain ⟨kind, children⟩ := node
        obtain ⟨i, rfl⟩ := Int.eq_ofNat_of_zero_le (not_lt.1 hneg)
        cases hop : kind.opInTable
        · rw [Enter_unknown file i kind children stdout hop] at h
          cases h
        · rw [Enter_done file i kind children stdout hop] at h
          cases h
      · obtain ⟨h1, h2, h3, h4, h5⟩ := Enter_panic_unknown_inv h
        refine ⟨h4, Or.inr (Or.inr ⟨rfl, h1, h2, h3, h5, ?_⟩)⟩
        rw [h5, flat_append]
        simp [flat]
      · exfalso
        obtain ⟨kind, children⟩ := node
        obtain ⟨i, rfl⟩ := Int.eq_ofNat_of_zero_le (not_lt.1 hneg)
        cases hop : kind.opInTable
        · rw [Enter_unknown file i kind children stdout hop] at h
          cases h
        · rw [Enter_done file i kind children stdout hop] at h
          cases h
  · rw [Enter_leaf] at h
    injection h with h1 h2 h3
    exact ⟨h2.symm, Or.inl ⟨h1.symm, rfl, h3.symm⟩⟩

/-- Witness of C9 (amended) on the BinaryOpExpr node with a nil operator tag. -/
theorem failing_Enter_effect_witness :
    Enter nestedWalker nilOpNode [] = .panic .unknownOperation nestedWalker ["  ".toList] ∧
      nestedWalker = nestedWalker ∧
      ((Panic.unknownOperation = .leafHasChildren ∧ nestedWalker.leaf = true ∧
          ["  ".toList] = ([] : List Bytes)) ∨
        (Panic.unknownOperation = .negativeRepeat ∧ nestedWalker.leaf = false ∧
          nestedWalker.indent < 0 ∧ ["  ".toList] = ([] : List Bytes)) ∨
        (Panic.unknownOperation = .unknownOperation ∧ nestedWalker.leaf = false ∧
          0 ≤ nestedWalker.indent ∧ nilOpNode.kind.opInTable = false ∧
          ["  ".toList] = [] ++ [List.replicate nestedWalker.indent.toNat ' '] ∧
          flat ["  ".toList] = flat [] ++ List.replicate nestedWalker.indent.toNat ' ')) :=
  ⟨by decide,
    failing_Enter_effect nestedWalker nilOpNode [] .unknownOperation nestedWalker ["  ".toList]
      (by decide)⟩

/-! ## The number of lines -/

theorem flat_count_switchWrites (file : Bytes) (node : Node) (h : '\n' ∉ fragment file node) :
    (flat (switchWrites file node)).count '\n' = 0 := by
  rw [flat_switchWrites]
  exact List.count_eq_zero_of_not_mem h

mutual
theorem count_newline_walkWrites (file : Bytes) :
    ∀ (node : Node) (i : Nat), newlineFree file node = true →
      (flat (walkWrites file node i)).count '\n' = countNodes node + countNotLeaf node
  | .mk kind children, i, h => by
    simp only [newlineFree, Bool.and_eq_true, decide_eq_true_eq] at h
    have ih := count_newline_childWrites file children (i + 2) h.2
    have hs := flat_count_switchWrites file (.mk kind children) h.1
    rw [walkWrites, countNodes, countNotLeaf]
    cases hk : kind.isLeaf <;>
      simp [flat_append, flat, List.count_append, List.count_replicate, List.count_cons, ih, hs]
    all_goals omega
theorem count_newline_childWrites (file : Bytes) :
    ∀ (nodes : List Node) (i : Nat), newlineFreeList file nodes = true →
      (flat (childWrites file nodes i)).count '\n' =
        countNodesList nodes + countNotLeafList nodes
  | [], i, _ => by simp [childWrites, countNodesList, countNotLeafList, flat]
  | c :: rest, i, h => by
    simp only [newlineFreeList, Bool.and_eq_true] at h
    simp only [childWrites, countNodesList, countNotLeafList, flat_append, List.count_append,
      count_newline_walkWrites file c i h.1, count_newline_childWrites file rest i h.2]
    omega
end

/-- C10, counterexample: the two-line template renders, its tree has three
nodes, one of them not of a leaf kind, and the output has five newline
characters, not four: the raw source text of the first literal holds one. -/
theorem newline_count_exceeds :
    render twoLineFile twoLineTree = .done (fresh twoLineFile) twoLineWrites ∧
      (flat twoLineWrites).count '\n' = 5 ∧
      countNodes twoLineTree + countNotLeaf twoLineTree = 4 := by
  decide

/-- C10, amended: when the rendering of a tree completes and no opening fragment
of the tree (kind name, names, labels, raw source text) contains a newline
character, the number of newline characters of the output is the number of
nodes plus the number of nodes that are not of a leaf kind. -/
theorem newline_count (file : Bytes) (root : Node) (w : walker) (stdout : List Bytes)
    (h : render file root = .done w stdout) (hfree : newlineFree file root = true) :
    (flat stdout).count '\n' = countNodes root + countNotLeaf root := by
  obtain ⟨_, _, hout⟩ := render_done_inv h
  rw [hout]
  exact count_newline_walkWrites file root 0 hfree

/-- Witness of C10 (amended) on the tree of `1 + 2 * 3`: seven lines. -/
theorem newline_count_witness :
    render sumFile sumTree = .done (fresh sumFile) sumWrites ∧
      newlineFree sumFile sumTree = true ∧
      (flat sumWrites).count '\n' = countNodes sumTree + countNotLeaf sumTree :=
  ⟨by decide, by decide,
    newline_count sumFile sumTree (fresh sumFile) sumWrites (by decide) (by decide)⟩

/-! ## Scenarios -/

theorem layout_append (a b : List (Nat × Bytes)) : layout (a ++ b) = layout a ++ layout b := by
  induction a with
  | nil => rfl
  | cons x xs ih =>
    obtain ⟨n, t⟩ := x
    simp [layout, ih]

theorem fmtWords_eq_intercalate (labels : List Bytes) :
    fmtWords labels = List.intercalate [' '] labels := by
  match labels with
  | [] => rfl
  | [a] => simp [fmtWords, List.intercalate]
  | a :: b :: rest =>
    have ih := fmtWords_eq_intercalate (b :: rest)
    simp [fmtWords, ih, List.intercalate]

theorem walkWrites_binary (file : Bytes) (op : Operation) (l r : Node) (i : Nat) :
    walkWrites file (.mk (.BinaryOpExpr op) [l, r]) i =
      [List.replicate i ' ', "(*hclsyntax.BinaryOpExpr \"".toList ++ symbol op ++ "\"".toList,
        "\n".toList] ++ walkWrites file l (i + 2) ++ walkWrites file r (i + 2) ++
        [List.replicate i ' ', ")\n".toList] := by
  simp [walkWrites, childWrites, switchWrites, fragment, Node.kind, fmtT, Kind.isLeaf]

/-- C11 (scenario `1 + 2 * 3`): the rendering of the tree of `1 + 2 * 3` from the
fresh walker returns and has written exactly the seven lines of the scenario.
In general the walk of a BinaryOpExpr node with an operator of the table and
well-formed operands writes the opening fragment with the operator symbol, then
what the walk of the left operand writes one level deeper, then what the walk
of the right operand writes, then the closing marker. -/
theorem sum_scenario :
    (∃ stdout, render sumFile sumTree = .done (fresh sumFile) stdout ∧
      flat stdout = layout sumLines) ∧
    (∀ (file : Bytes) (op : Operation) (sym : Bytes) (l r : Node) (i : Nat)
      (stdout : List Bytes),
      opAsString op = some sym → wellFormed l = true → wellFormed r = true →
      ∃ outL outR,
        Walk ⟨(i : Int) + 2, false, file⟩ l [] = .done ⟨(i : Int) + 2, false, file⟩ outL ∧
        Walk ⟨(i : Int) + 2, false, file⟩ r [] = .done ⟨(i : Int) + 2, false, file⟩ outR ∧
        Walk ⟨(i : Int), false, file⟩ (.mk (.BinaryOpExpr op) [l, r]) stdout =
          .done ⟨(i : Int), false, file⟩
            (stdout ++
              [List.replicate i ' ',
                "(*hclsyntax.BinaryOpExpr \"".toList ++ sym ++ "\"".toList, "\n".toList] ++
              outL ++ outR ++ [List.replicate i ' ', ")\n".toList])) := by
  refine ⟨⟨sumWrites, by decide, rfl⟩, ?_⟩
  intro file op sym l r i stdout hop hl hr
  have hmem : op ∈ tableTags := by
    by_contra hnot
    rw [opAsString_of_not_mem hnot] at hop
    cases hop
  have hsym : sym = symbol op := by
    rw [opAsString_of_mem hmem] at hop
    injection hop with h
    exact h.symm
  have hwf : wellFormed (.mk (.BinaryOpExpr op) [l, r]) = true := by
    simp [wellFormed, wellFormedList, Kind.isLeaf, Kind.opInTable, hmem, hl, hr]
  have hL := Walk_done file l (i + 2) [] hl
  have hR := Walk_done file r (i + 2) [] hr
  simp only [Nat.cast_add, Nat.cast_ofNat, List.nil_append] at hL hR
  refine ⟨_, _, hL, hR, ?_⟩
  rw [Walk_done file _ i stdout hwf, walkWrites_binary, hsym]
  simp

/-- Witness of C11: the general part at the product `2 * 3` inside the sum. -/
theorem sum_scenario_witness :
    opAsString .OpMultiply = some "*".toList ∧ wellFormed (literal 4 5) = true ∧
      wellFormed (literal 8 9) = true ∧
      ∃ outL outR,
        Walk ⟨((2 : Nat) : Int) + 2, false, sumFile⟩ (literal 4 5) [] =
          .done ⟨((2 : Nat) : Int) + 2, false, sumFile⟩ outL ∧
        Walk ⟨((2 : Nat) : Int) + 2, false, sumFile⟩ (literal 8 9) [] =
          .done ⟨((2 : Nat) : Int) + 2, false, sumFile⟩ outR ∧
        Walk ⟨((2 : Nat) : Int), false, sumFile⟩
            (.mk (.BinaryOpExpr .OpMultiply) [literal 4 5, literal 8 9]) [] =
          .done ⟨((2 : Nat) : Int), false, sumFile⟩
            ([] ++
              [List.replicate 2 ' ',
                "(*hclsyntax.BinaryOpExpr \"".toList ++ "*".toList ++ "\"".toList,
                "\n".toList] ++
              outL ++ outR ++ [List.replicate 2 ' ', ")\n".toList]) :=
  ⟨by decide, by decide, by decide,
    sum_scenario.2 sumFile .OpMultiply "*".toList (literal 4 5) (literal 8 9) 2 []
      (by decide) (by decide) (by decide)⟩

/-- C12 (scenario resource block): for every byte buffer and every source range
of the literal, `r` being the raw text the range cuts out of the buffer, the
rendering of the resource tree returns and has written exactly the five lines of
the scenario.  In general, with the pending-leaf flag clear and a depth that is
not negative, `Enter` on a Block writes the indentation, then the kind, the
quoted block type and the labels in order, separated by single spaces inside
square brackets (`[]` when there is none), then the newline. -/
theorem resource_scenario :
    (∀ (file : Bytes) (range : Range),
      ∃ stdout, render file (resourceTree range) = .done (fresh file) stdout ∧
        flat stdout = layout (resourceLines (range.SliceBytes file))) ∧
    (∀ (w : walker) (Typ : Bytes) (Labels : List Bytes) (children : List Node)
      (stdout : List Bytes), w.leaf = false → 0 ≤ w.indent →
      Enter w (.mk (.Block Typ Labels) children) stdout =
        .done { w with indent := w.indent + 2 }
          (stdout ++
            [List.replicate w.indent.toNat ' ',
              "(*hclsyntax.Block \"".toList ++ Typ ++ "\" [".toList ++
                List.intercalate [' '] Labels ++ "]".toList,
              "\n".toList])) ∧
    List.intercalate [' '] ([] : List Bytes) = [] := by
  refine ⟨?_, ?_, rfl⟩
  · intro file range
    have hwf : wellFormed (resourceTree range) = true := by
      simp [resourceTree, wellFormed, wellFormedList, Kind.isLeaf, Kind.opInTable]
    refine ⟨walkWrites file (resourceTree range) 0, ?_, ?_⟩
    · have hd := Walk_done file (resourceTree range) 0 [] hwf
      simpa [render, fresh] using hd
    · simp [resourceTree, walkWrites, childWrites, switchWrites, fragment, Node.kind, fmtT,
        Kind.isLeaf, flat, layout, resourceLines, fmtWords]
  · intro w Typ Labels children stdout hflag hdepth
    obtain ⟨indent, leaf, file⟩ := w
    simp only at hflag hdepth
    obtain ⟨i, rfl⟩ := Int.eq_ofNat_of_zero_le hdepth
    subst hflag
    rw [Enter_done file i (.Block Typ Labels) children stdout rfl]
    simp [switchWrites, fragment, Node.kind, fmtT, Kind.isLeaf, fmtWords_eq_intercalate]

/-- Witness of C12: the literal whose raw text is `bar`. -/
theorem resource_scenario_witness :
    (⟨42, 45⟩ : Range).SliceBytes resourceFile = "bar".toList ∧
      ∃ stdout, render resourceFile (resourceTree ⟨42, 45⟩) = .done (fresh resourceFile) stdout ∧
        flat stdout = layout (resourceLines ((⟨42, 45⟩ : Range).SliceBytes resourceFile)) :=
  ⟨by decide, resource_scenario.1 resourceFile ⟨42, 45⟩⟩

/-- C13 (scenario empty document): the rendering of a root that is not of a leaf
kind and has no child returns and has written exactly two lines, the opening
fragment of the root at indentation 0 and, right after it, the closing marker at
indentation 0. -/
theorem empty_document_scenario (file : Bytes) (kind : Kind) (hkind : kind.isLeaf = false)
    (hop : kind.opInTable = true) :
    ∃ stdout, render file (.mk kind []) = .done (fresh file) stdout ∧
      flat stdout = layout [(0, fragment file (.mk kind [])), (0, ")".toList)] ∧
      stdout.count ")\n".toList = 1 := by
  have hwf : wellFormed (.mk kind []) = true := by
    simp [wellFormed, wellFormedList, hkind, hop]
  refine ⟨walkWrites file (.mk kind []) 0, ?_, ?_, ?_⟩
  · have hd := Walk_done file (.mk kind []) 0 [] hwf
    simpa [render, fresh] using hd
  · simp [walkWrites, childWrites, hkind, flat_append, flat_switchWrites, flat, layout]
  · have h := count_closing_walkWrites file (.mk kind []) 0
    simpa [countNotLeaf, countNotLeafList, hkind] using h

/-- Witness of C13: the empty body. -/
theorem empty_document_scenario_witness :
    (Kind.Other "*hclsyntax.Body".toList).isLeaf = false ∧
      (Kind.Other "*hclsyntax.Body".toList).opInTable = true ∧
      fragment [] emptyBody = "(*hclsyntax.Body".toList ∧
      ∃ stdout, render [] emptyBody = .done (fresh []) stdout ∧
        flat stdout = layout [(0, fragment [] emptyBody), (0, ")".toList)] ∧
        stdout.count ")\n".toList = 1 :=
  ⟨by decide, by decide, by decide,
    empty_document_scenario [] (.Other "*hclsyntax.Body".toList) (by decide) (by decide)⟩

/-- C14 (ForExpr fragment): with the pending-leaf flag clear and a depth that is
not negative, `Enter` on a ForExpr node returns with the flag still clear, and
what it has written is the indentation, then `(` and the kind, then
` key="<KeyVar>"` exactly when the key variable name is not empty, then
` val="<ValVar>"` exactly when the value variable name is not empty, then the
newline; the fragment is the one of the specification and does not end in a
closing parenthesis. -/
theorem forExpr_fragment (w : walker) (KeyVar ValVar : Bytes) (children : List Node)
    (stdout : List Bytes) (hflag : w.leaf = false) (hdepth : 0 ≤ w.indent) :
    ∃ out, Enter w (.mk (.ForExpr KeyVar ValVar) children) stdout =
        .done { w with indent := w.indent + 2, leaf := false } (stdout ++ out) ∧
      flat out =
        List.replicate w.indent.toNat ' ' ++
          ("(*hclsyntax.ForExpr".toList ++
            (if KeyVar ≠ [] then " key=\"".toList ++ KeyVar ++ "\"".toList else []) ++
            (if ValVar ≠ [] then " val=\"".toList ++ ValVar ++ "\"".toList else [])) ++
          "\n".toList ∧
      fragment w.file (.mk (.ForExpr KeyVar ValVar) children) =
        "(*hclsyntax.ForExpr".toList ++
          (if KeyVar ≠ [] then " key=\"".toList ++ KeyVar ++ "\"".toList else []) ++
          (if ValVar ≠ [] then " val=\"".toList ++ ValVar ++ "\"".toList else []) ∧
      (fragment w.file (.mk (.ForExpr KeyVar ValVar) children)).getLast? ≠ some ')' := by
  obtain ⟨indent, leaf, file⟩ := w
  simp only at hflag hdepth
  obtain ⟨i, rfl⟩ := Int.eq_ofNat_of_zero_le hdepth
  subst hflag
  refine ⟨_, Enter_done file i (.ForExpr KeyVar ValVar) children stdout rfl, ?_, ?_, ?_⟩
  · by_cases hk : KeyVar = [] <;> by_cases hv : ValVar = [] <;>
      simp [switchWrites, Node.kind, fmtT, flat, hk, hv]
  · by_cases hk : KeyVar = [] <;> by_cases hv : ValVar = [] <;>
      simp [fragment, Node.kind, fmtT, hk, hv]
  · have key : ∀ (pre : Bytes), (pre ++ "\"".toList).getLast? ≠ some ')' := by
      intro pre
      simp
    by_cases hk : KeyVar = [] <;> by_cases hv : ValVar = []
    · simp [fragment, Node.kind, fmtT, hk, hv]
    · simpa [fragment, Node.kind, fmtT, hk, hv] using
        key ("(*hclsyntax.ForExpr val=\"".toList ++ ValVar)
    · simpa [fragment, Node.kind, fmtT, hk, hv] using
        key ("(*hclsyntax.ForExpr key=\"".toList ++ KeyVar)
    · simpa [fragment, Node.kind, fmtT, hk, hv] using
        key ("(*hclsyntax.ForExpr key=\"".toList ++ KeyVar ++ "\" val=\"".toList ++ ValVar)

/-- Witness of C14: a ForExpr with both variables, entered one level deep. -/
theorem forExpr_fragment_witness :
    nestedWalker.leaf = false ∧ 0 ≤ nestedWalker.indent ∧
      Enter nestedWalker forNode [] =
        .done { nestedWalker with indent := 4 }
          ["  ".toList, "(*hclsyntax.ForExpr".toList, " key=\"k\"".toList, " val=\"v\"".toList,
            "\n".toList] ∧
      ∃ out, Enter nestedWalker forNode [] =
          .done { nestedWalker with indent := nestedWalker.indent + 2, leaf := false }
            ([] ++ out) ∧
        flat out =
          List.replicate nestedWalker.indent.toNat ' ' ++
            ("(*hclsyntax.ForExpr".toList ++
              (if "k".toList ≠ [] then " key=\"".toList ++ "k".toList ++ "\"".toList else []) ++
              (if "v".toList ≠ [] then " val=\"".toList ++ "v".toList ++ "\"".toList else [])) ++
            "\n".toList :=
  have h := forExpr_fragment nestedWalker "k".toList "v".toList [] [] (by decide) (by decide)
  ⟨by decide, by decide, by decide, h.choose, h.choose_spec.1, h.choose_spec.2.1⟩

/-! ## The depth during a walk -/

theorem Enter_done_indent {w : walker} {node : Node} {stdout : List Bytes} {w1 : walker}
    {out1 : List Bytes} (h : Enter w node stdout = .done w1 out1) :
    w1.indent = w.indent + 2 := by
  obtain ⟨indent, leaf, file⟩ := w
  obtain ⟨kind, children⟩ := node
  cases leaf
  · by_cases hneg : indent < 0
    · rw [Enter_negative indent file _ stdout hneg] at h
      cases h
    · obtain ⟨i, rfl⟩ := Int.eq_ofNat_of_zero_le (not_lt.1 hneg)
      cases hop : kind.opInTable
      · rw [Enter_unknown file i kind children stdout hop] at h
        cases h
      · rw [Enter_done file i kind children stdout hop] at h
        injection h with h1 _
        rw [← h1]
  · rw [Enter_leaf] at h
    cases h

theorem Enter_panic_walker {w : walker} {node : Node} {stdout : List Bytes} {why : Panic}
    {w1 : walker} {out1 : List Bytes} (h : Enter w node stdout = .panic why w1 out1) :
    w1 = w ∧ (why = .negativeRepeat → w.indent < 0) := by
  obtain ⟨indent, leaf, file⟩ := w
  obtain ⟨kind, children⟩ := node
  cases leaf
  · by_cases hneg : indent < 0
    · rw [Enter_negative indent file _ stdout hneg] at h
      injection h with _ h2 _
      exact ⟨h2.symm, fun _ => hneg⟩
    · obtain ⟨i, rfl⟩ := Int.eq_ofNat_of_zero_le (not_lt.1 hneg)
      cases hop : kind.opInTable
      · rw [Enter_unknown file i kind children stdout hop] at h
        injection h with h1 h2 _
        subst h1
        exact ⟨h2.symm, fun hw => by cases hw⟩
      · rw [Enter_done file i kind children stdout hop] at h
        cases h
  · rw [Enter_leaf] at h
    injection h with h1 h2 _
    subst h1
    exact ⟨h2.symm, fun hw => by cases hw⟩

theorem Exit_of_two_le (w : walker) (node : Node) (stdout : List Bytes) (h : 2 ≤ w.indent) :
    ∃ out1, Exit w node stdout = .done ⟨w.indent - 2, false, w.file⟩ out1 := by
  obtain ⟨indent, leaf, file⟩ := w
  simp only at h
  have hneg : ¬ indent - 2 < 0 := by omega
  cases leaf
  · exact ⟨_, by simp [Exit, Repeat, hneg]; rfl⟩
  · exact ⟨_, by simp [Exit]; rfl⟩

theorem Exit_done_indent {w : walker} {node : Node} {stdout : List Bytes} {w1 : walker}
    {out1 : List Bytes} (h : Exit w node stdout = .done w1 out1) :
    w1.indent = w.indent - 2 := by
  obtain ⟨indent, leaf, file⟩ := w
  cases leaf
  · by_cases hneg : indent - 2 < 0
    · simp [Exit, Repeat, hneg] at h
    · simp [Exit, Repeat, hneg] at h
      rw [← h.1]
  · simp [Exit] at h
    rw [← h.1]

mutual
theorem WalkCalls_fst (w : walker) (node : Node) (stdout : List Bytes) :
    (WalkCalls w node stdout).1 = Walk w node stdout := by
  match node with
  | .mk kind children =>
    rw [WalkCalls, Walk]
    cases hE : Enter w (.mk kind children) stdout with
    | panic why w1 out1 => rfl
    | done w1 out1 =>
      have ih := walkChildNodesCalls_fst w1 children out1
      simp only []
      rw [ih]
      cases walkChildNodes w1 children out1 <;> rfl
theorem walkChildNodesCalls_fst (w : walker) (children : List Node) (stdout : List Bytes) :
    (walkChildNodesCalls w children stdout).1 = walkChildNodes w children stdout := by
  match children with
  | [] => rfl
  | c :: rest =>
    rw [walkChildNodesCalls, walkChildNodes]
    have ih := WalkCalls_fst w c stdout
    simp only []
    rw [ih]
    cases Walk w c stdout with
    | panic why w1 out1 => rfl
    | done w1 out1 => exact walkChildNodesCalls_fst w1 rest out1
end

mutual
theorem WalkCalls_depth (node : Node) (w : walker) (stdout : List Bytes)
    (h0 : 0 ≤ w.indent) (h2 : 2 ∣ w.indent) :
    (∀ c ∈ (WalkCalls w node stdout).2,
      0 ≤ c.walker.indent ∧ 2 ∣ c.walker.indent ∧ (c.isExit = true → 2 ≤ c.walker.indent)) ∧
    (∀ w1 out1, (WalkCalls w node stdout).1 = .done w1 out1 → w1.indent = w.indent) ∧
    (∀ why w1 out1, (WalkCalls w node stdout).1 = .panic why w1 out1 →
      why ≠ .negativeRepeat ∧ 0 ≤ w1.indent ∧ 2 ∣ w1.indent) := by
  match node with
  | .mk kind children =>
    rw [WalkCalls]
    cases hE : Enter w (.mk kind children) stdout with
    | panic why w1 out1 =>
      obtain ⟨hw, hwhy⟩ := Enter_panic_walker hE
      refine ⟨?_, ?_, ?_⟩
      · intro c hc
        simp only [List.mem_singleton] at hc
        subst hc
        exact ⟨h0, h2, fun h => by cases h⟩
      · intro w2 out2 h
        cases h
      · intro why2 w2 out2 h
        injection h with e1 e2 _
        subst e1 e2 hw
        exact ⟨fun hn => absurd (hwhy hn) (not_lt.2 h0), h0, h2⟩
    | done w1 out1 =>
      have hi := Enter_done_indent hE
      have h10 : 0 ≤ w1.indent := by omega
      have h12 : 2 ∣ w1.indent := by omega
      obtain ⟨ihc, ihd, ihp⟩ := walkChildNodesCalls_depth children w1 out1 h10 h12
      simp only []
      cases hC : (walkChildNodesCalls w1 children out1).1 with
      | panic why w2 out2 =>
        obtain ⟨p1, p2, p3⟩ := ihp why w2 out2 hC
        refine ⟨?_, ?_, ?_⟩
        · intro c hc
          simp only [List.mem_cons] at hc
          rcases hc with hc | hc
          · subst hc
            exact ⟨h0, h2, fun h => by cases h⟩
          · exact ihc c hc
        · intro w3 out3 h
          cases h
        · intro why3 w3 out3 h
          injection h with e1 e2 _
          subst e1 e2
          exact ⟨p1, p2, p3⟩
      | done w2 out2 =>
        have hw2 := ihd w2 out2 hC
        have h22 : 2 ≤ w2.indent := by omega
        obtain ⟨out3, hX⟩ := Exit_of_two_le w2 (.mk kind children) out2 h22
        refine ⟨?_, ?_, ?_⟩
        · intro c hc
          simp only [List.mem_cons, List.mem_append, List.not_mem_nil, or_false] at hc
          rcases hc with (hc | hc) | hc
          · subst hc
            exact ⟨h0, h2, fun h => by cases h⟩
          · exact ihc c hc
          · subst hc
            exact ⟨by simp only [Call.walker]; omega, by simp only [Call.walker]; omega,
              fun _ => h22⟩
        · intro w3 out3' h
          simp only [hX] at h
          injection h with e1 _
          subst e1
          simp only
          omega
        · intro why3 w3 out3' h
          simp only [hX] at h
          cases h
theorem walkChildNodesCalls_depth (children : List Node) (w : walker) (stdout : List Bytes)
    (h0 : 0 ≤ w.indent) (h2 : 2 ∣ w.indent) :
    (∀ c ∈ (walkChildNodesCalls w children stdout).2,
      0 ≤ c.walker.indent ∧ 2 ∣ c.walker.indent ∧ (c.isExit = true → 2 ≤ c.walker.indent)) ∧
    (∀ w1 out1, (walkChildNodesCalls w children stdout).1 = .done w1 out1 →
      w1.indent = w.indent) ∧
    (∀ why w1 out1, (walkChildNodesCalls w children stdout).1 = .panic why w1 out1 →
      why ≠ .negativeRepeat ∧ 0 ≤ w1.indent ∧ 2 ∣ w1.indent) := by
  match children with
  | [] =>
    rw [walkChildNodesCalls]
    refine ⟨?_, ?_, ?_⟩
    · intro c hc
      cases hc
    · intro w1 out1 h
      injection h with e1 _
      rw [← e1]
    · intro why w1 out1 h
      cases h
  | c :: rest =>
    obtain ⟨ihc, ihd, ihp⟩ := WalkCalls_depth c w stdout h0 h2
    rw [walkChildNodesCalls]
    simp only []
    cases hF : (WalkCalls w c stdout).1 with
    | panic why w1 out1 =>
      refine ⟨ihc, ?_, ?_⟩
      · intro w2 out2 h
        cases h
      · intro why2 w2 out2 h
        injection h with e1 e2 _
        subst e1 e2
        exact ihp why w1 out1 hF
    | done w1 out1 =>
      have hw1 := ihd w1 out1 hF
      have h10 : 0 ≤ w1.indent := by omega
      have h12 : 2 ∣ w1.indent := by omega
      obtain ⟨rc, rd, rp⟩ := walkChildNodesCalls_depth rest w1 out1 h10 h12
      refine ⟨?_, ?_, ?_⟩
      · intro d hd
        rcases List.mem_append.1 hd with hd | hd
        · exact ihc d hd
        · exact rc d hd
      · intro w2 out2 h
        rw [rd w2 out2 h, hw1]
      · intro why2 w2 out2 h
        exact rp why2 w2 out2 h
end

/-- C15 (depth): during a rendering from the fresh walker, `Enter` and `Exit` are
always called with a depth that is an even integer and not negative, and `Exit`
is always called with a depth of at least 2: the depth starts at 0, a returning
`Enter` adds exactly 2, a returning `Exit` subtracts exactly 2; the rendering
ends, returned or panicked, at such a depth too, and it never ends in the panic
of `strings.Repeat` on a negative count. -/
theorem depth_never_negative (file : Bytes) (root : Node) :
    (WalkCalls (fresh file) root []).1 = render file root ∧
    (fresh file).indent = 0 ∧
    (∀ w node stdout w1 out1, Enter w node stdout = .done w1 out1 →
      w1.indent = w.indent + 2) ∧
    (∀ w node stdout w1 out1, Exit w node stdout = .done w1 out1 →
      w1.indent = w.indent - 2) ∧
    (∀ c ∈ (WalkCalls (fresh file) root []).2,
      0 ≤ c.walker.indent ∧ 2 ∣ c.walker.indent) ∧
    (∀ w node, Call.exit w node ∈ (WalkCalls (fresh file) root []).2 →
      2 ≤ w.indent ∧ ∀ stdout, ∃ w1 out1, Exit w node stdout = .done w1 out1) ∧
    0 ≤ (render file root).walker.indent ∧ 2 ∣ (render file root).walker.indent ∧
    (∀ w stdout, render file root ≠ .panic .negativeRepeat w stdout) := by
  obtain ⟨hc, hd, hp⟩ := WalkCalls_depth root (fresh file) [] (le_refl 0) (dvd_zero 2)
  have hfst := WalkCalls_fst (fresh file) root []
  rw [hfst] at hd hp
  refine ⟨hfst, rfl, fun _ _ _ _ _ h => Enter_done_indent h,
    fun _ _ _ _ _ h => Exit_done_indent h, fun c hcm => ⟨(hc c hcm).1, (hc c hcm).2.1⟩, ?_, ?_, ?_,
    ?_⟩
  · intro w node hmem
    have h22 := (hc _ hmem).2.2 rfl
    refine ⟨h22, fun stdout => ?_⟩
    obtain ⟨out1, hX1⟩ := Exit_of_two_le w node stdout h22
    exact ⟨_, out1, hX1⟩
  · cases hr : render file root with
    | done w1 out1 =>
      have := hd w1 out1 hr
      simp only [Run.walker, this, fresh]
      exact le_refl 0
    | panic why w1 out1 => exact (hp why w1 out1 hr).2.1
  · cases hr : render file root with
    | done w1 out1 =>
      have := hd w1 out1 hr
      simp only [Run.walker, this, fresh]
      exact dvd_zero 2
    | panic why w1 out1 => exact (hp why w1 out1 hr).2.2
  · intro w stdout hr
    exact (hp _ w stdout hr).1 rfl

/-- Witness of C15: the depths at the ten calls of the rendering of `1 + 2 * 3`. -/
theorem depth_never_negative_witness :
    (WalkCalls (fresh sumFile) sumTree []).2.map (fun c => c.walker.indent) =
        [0, 2, 4, 2, 4, 6, 4, 6, 4, 2] ∧
      ∀ c ∈ (WalkCalls (fresh sumFile) sumTree []).2,
        0 ≤ c.walker.indent ∧ 2 ∣ c.walker.indent :=
  ⟨by decide, (depth_never_negative sumFile sumTree).2.2.2.2.1⟩

/-! ## Determinism and the state after a walk -/

theorem Run.after_after (a b : List Bytes) (r : Run) : (r.after b).after a = r.after (a ++ b) := by
  cases r <;> simp [Run.after]

theorem Run.after_nil (r : Run) : r.after [] = r := by
  cases r <;> simp [Run.after]

theorem Enter_after (w : walker) (node : Node) (stdout : List Bytes) :
    Enter w node stdout = (Enter w node []).after stdout := by
  obtain ⟨indent, leaf, file⟩ := w
  obtain ⟨kind, children⟩ := node
  cases leaf
  · by_cases hneg : indent < 0
    · simp [Enter_negative, hneg, Run.after]
    · obtain ⟨i, rfl⟩ := Int.eq_ofNat_of_zero_le (not_lt.1 hneg)
      cases hop : kind.opInTable
      · simp [Enter_unknown, hop, Run.after]
      · simp [Enter_done, hop, Run.after]
  · simp [Enter_leaf, Run.after]

theorem Exit_after (w : walker) (node : Node) (stdout : List Bytes) :
    Exit w node stdout = (Exit w node []).after stdout := by
  obtain ⟨indent, leaf, file⟩ := w
  cases leaf
  · by_cases hneg : indent - 2 < 0 <;> simp [Exit, Repeat, hneg, Run.after]
  · simp [Exit, Run.after]

mutual
theorem Walk_after (w : walker) (node : Node) (stdout : List Bytes) :
    Walk w node stdout = (Walk w node []).after stdout := by
  match node with
  | .mk kind children =>
    rw [Walk, Walk, Enter_after w _ stdout]
    cases Enter w (.mk kind children) [] with
    | panic why w1 out1 => simp [Run.after]
    | done w1 out1 =>
      simp only [Run.after]
      rw [walkChildNodes_after w1 children (stdout ++ out1), walkChildNodes_after w1 children out1]
      cases walkChildNodes w1 children [] with
      | panic why w2 out2 => simp [Run.after]
      | done w2 out2 =>
        simp only [Run.after]
        rw [Exit_after w2 _ (stdout ++ out1 ++ out2), Exit_after w2 _ (out1 ++ out2)]
        cases Exit w2 (.mk kind children) [] <;> simp [Run.after]
theorem walkChildNodes_after (w : walker) (children : List Node) (stdout : List Bytes) :
    walkChildNodes w children stdout = (walkChildNodes w children []).after stdout := by
  match children with
  | [] => simp [walkChildNodes, Run.after]
  | c :: rest =>
    rw [walkChildNodes, walkChildNodes, Walk_after w c stdout]
    cases Walk w c [] with
    | panic why w1 out1 => simp [Run.after]
    | done w1 out1 =>
      simp only [Run.after]
      rw [walkChildNodes_after w1 rest (stdout ++ out1), walkChildNodes_after w1 rest out1]
      cases walkChildNodes w1 rest [] <;> simp [Run.after]
end

/-- C16 (determinism): the walk of a tree from the fresh walker on an output that
already holds `stdout` is the rendering of the tree on the empty output with
`stdout` in front: what a rendering writes, whether it panics, where and in
which state, depend on the tree and the byte buffer only; so two renderings
from two fresh walkers for the same buffer are the same. -/
theorem rendering_is_deterministic (file : Bytes) (root : Node) :
    (∀ stdout, Walk (fresh file) root stdout = (render file root).after stdout) ∧
    (∀ w1 w2 : walker, w1 = fresh file → w2 = fresh file →
      ∀ out1 out2, (Walk w1 root out1).walker = (Walk w2 root out2).walker ∧
        ∃ written, (Walk w1 root out1).stdout = out1 ++ written ∧
          (Walk w2 root out2).stdout = out2 ++ written) := by
  refine ⟨fun stdout => Walk_after (fresh file) root stdout, ?_⟩
  intro w1 w2 h1 h2 out1 out2
  subst h1 h2
  rw [Walk_after (fresh file) root out1, Walk_after (fresh file) root out2]
  cases Walk (fresh file) root [] with
  | done w out => exact ⟨rfl, out, rfl, rfl⟩
  | panic why w out => exact ⟨rfl, out, rfl, rfl⟩

/-- C18 (state restoration): a walk that starts with the pending-leaf flag clear
and returns ends with the walker it started with: the same depth, the flag
clear, the same byte buffer; so the same walk can be run again from the walker
it left and gives the same result. -/
theorem walk_restores_walker (w : walker) (node : Node) (stdout : List Bytes) (w1 : walker)
    (out1 : List Bytes) (hflag : w.leaf = false) (h : Walk w node stdout = .done w1 out1) :
    w1 = w ∧ w1.indent = w.indent ∧ w1.leaf = false ∧ w1.file = w.file ∧
      Walk w1 node stdout = .done w1 out1 := by
  have key : w1 = w := by
    obtain ⟨indent, leaf, file⟩ := w
    simp only at hflag
    subst hflag
    by_cases hneg : indent < 0
    · obtain ⟨kind, children⟩ := node
      rw [Walk, Enter_negative indent file _ stdout hneg] at h
      cases h
    · obtain ⟨i, rfl⟩ := Int.eq_ofNat_of_zero_le (not_lt.1 hneg)
      cases hwf : wellFormed node
      · obtain ⟨why, w2, out2, hp, _⟩ := Walk_panic file node i stdout hwf
        rw [hp] at h
        cases h
      · rw [Walk_done file node i stdout hwf] at h
        injection h with h1 _
        exact h1.symm
  subst key
  exact ⟨rfl, rfl, hflag, rfl, h⟩

/-- Witness of C18: the rendering of `1 + 2 * 3` ends with the fresh walker. -/
theorem walk_restores_walker_witness :
    (fresh sumFile).leaf = false ∧
      Walk (fresh sumFile) sumTree [] = .done (fresh sumFile) sumWrites ∧
      (fresh sumFile).indent = 0 ∧
      Walk (fresh sumFile) sumTree [] = .done (fresh sumFile) sumWrites :=
  have h := walk_restores_walker (fresh sumFile) sumTree [] (fresh sumFile) sumWrites
    (by decide) (by decide)
  ⟨by decide, by decide, h.2.1, h.2.2.2.2⟩

/-! ## The front door -/

/-- C17 (mode priority): `main` runs the document mode whenever `-f` is not empty,
whatever `-e` and `-t` are; otherwise the expression mode whenever `-e` is not
empty, whatever `-t` is; otherwise the template mode whenever `-t` is not empty;
and with the three empty it prints the usage and exits with status 2, without a
walk.  A read or parse failure of the mode that runs exits with status 1, and
these are the only exits. -/
theorem mode_priority (lib : Library) (inFile exprMode templateMode : Bytes) :
    (inFile ≠ [] → main lib inFile exprMode templateMode = runDocument lib inFile) ∧
    (inFile = [] → exprMode ≠ [] →
      main lib inFile exprMode templateMode = runExpression lib exprMode) ∧
    (inFile = [] → exprMode = [] → templateMode ≠ [] →
      main lib inFile exprMode templateMode = runTemplate lib templateMode) ∧
    (inFile = [] → exprMode = [] → templateMode = [] →
      main lib inFile exprMode templateMode = .exit 2 .usage) ∧
    (lib.ReadFile inFile = none → runDocument lib inFile = .exit 1 .errorReadingFile) ∧
    (∀ f, lib.ReadFile inFile = some f → lib.ParseConfig f inFile = none →
      runDocument lib inFile = .exit 1 .errorParsingFile) ∧
    (lib.ParseExpression exprMode = none →
      runExpression lib exprMode = .exit 1 .errorParsingExpression) ∧
    (lib.ParseTemplate templateMode = none →
      runTemplate lib templateMode = .exit 1 .errorParsingTemplate) ∧
    (∀ status message, main lib inFile exprMode templateMode = .exit status message →
      (status = 2 ∧ message = .usage ∧ inFile = [] ∧ exprMode = [] ∧ templateMode = []) ∨
        (status = 1 ∧ message ≠ .usage)) := by
  refine ⟨?_, ?_, ?_, ?_, ?_, ?_, ?_, ?_, ?_⟩
  · intro h
    simp [main, h]
  · intro h1 h2
    simp [main, h1, h2]
  · intro h1 h2 h3
    simp [main, h1, h2, h3]
  · intro h1 h2 h3
    simp [main, h1, h2, h3, usage]
  · intro h
    simp [runDocument, h]
  · intro f h1 h2
    simp [runDocument, h1, h2]
  · intro h
    simp [runExpression, h]
  · intro h
    simp [runTemplate, h]
  · intro status message h
    by_cases hf : inFile = []
    · by_cases he : exprMode = []
      · by_cases ht : templateMode = []
        · simp [main, hf, he, ht, usage] at h
          exact Or.inl ⟨h.1.symm, h.2.symm, hf, he, ht⟩
        · simp only [main, hf, he, ht, ne_eq, not_true_eq_false, not_false_eq_true, if_true,
            if_false, runTemplate] at h
          cases hp : lib.ParseTemplate templateMode with
          | none =>
            rw [hp] at h
            injection h with h1 h2
            exact Or.inr ⟨h1.symm, by rw [← h2]; decide⟩
          | some e =>
            rw [hp] at h
            cases h
      · simp only [main, hf, he, ne_eq, not_true_eq_false, not_false_eq_true, if_true,
          if_false, runExpression] at h
        cases hp : lib.ParseExpression exprMode with
        | none =>
          rw [hp] at h
          injection h with h1 h2
          exact Or.inr ⟨h1.symm, by rw [← h2]; decide⟩
        | some e =>
          rw [hp] at h
          cases h
    · simp only [main, hf, ne_eq, not_false_eq_true, if_true, runDocument] at h
      cases hr : lib.ReadFile inFile with
      | none =>
        rw [hr] at h
        injection h with h1 h2
        exact Or.inr ⟨h1.symm, by rw [← h2]; decide⟩
      | some f =>
        rw [hr] at h
        cases hp : lib.ParseConfig f inFile with
        | none =>
          simp only [hp] at h
          injection h with h1 h2
          exact Or.inr ⟨h1.symm, by rw [← h2]; decide⟩
        | some p =>
          obtain ⟨body, bytes⟩ := p
          simp only [hp] at h
          cases h

/-- Witness of C17: with a library that reads no file, `-f` wins over `-e` and
`-t` and exits with status 1, `-e` wins over `-t`, and no flag gives the usage
with status 2. -/
theorem mode_priority_witness :
    main stubLibrary "x".toList "1 + 2 * 3".toList "a".toList = .exit 1 .errorReadingFile ∧
      main stubLibrary [] sumFile twoLineFile = .walked (render sumFile sumTree) ∧
      main stubLibrary [] [] twoLineFile = .walked (render twoLineFile twoLineTree) ∧
      main stubLibrary [] [] [] = .exit 2 .usage :=
  have h1 := mode_priority stubLibrary "x".toList "1 + 2 * 3".toList "a".toList
  have h2 := mode_priority stubLibrary [] sumFile twoLineFile
  have h3 := mode_priority stubLibrary [] [] twoLineFile
  have h4 := mode_priority stubLibrary [] [] []
  ⟨(h1.1 (by decide)).trans (h1.2.2.2.2.1 rfl),
    h2.2.1 rfl (by decide), h3.2.2.1 rfl rfl (by decide), h4.2.2.2.1 rfl rfl rfl⟩

/-! ## Injectivity of the operator table -/

theorem opAsString_eq_on_table :
    ∀ a ∈ tableTags, ∀ b ∈ tableTags, a ≠ b → opAsString a = opAsString b →
      (a = .OpSubtract ∧ b = .OpNegate) ∨ (a = .OpNegate ∧ b = .OpSubtract) := by
  decide

theorem opAsString_injective_binary :
    ∀ a ∈ binaryTags, ∀ b ∈ binaryTags, opAsString a = opAsString b → a = b := by
  decide

theorem opAsString_injective_unary :
    ∀ a ∈ unaryTags, ∀ b ∈ unaryTags, opAsString a = opAsString b → a = b := by
  decide

theorem mem_tableTags_of_binary {op : Operation} (h : op ∈ binaryTags) : op ∈ tableTags := by
  revert op
  decide

theorem mem_tableTags_of_unary {op : Operation} (h : op ∈ unaryTags) : op ∈ tableTags := by
  revert op
  decide

theorem symbol_eq_of_fragment_eq (pre : Bytes) (a b : Bytes)
    (h : pre ++ a ++ "\"".toList = pre ++ b ++ "\"".toList) : a = b := by
  have h1 := List.append_cancel_right h
  exact List.append_cancel_left h1

/-- C19 (one collision in the table): OpSubtract and OpNegate both map to `-`, and
two distinct tags of the table have the same symbol only if they are these two.
So `opAsString` is injective on the tags of a BinaryOpExpr (all but OpLogicalNot
and OpNegate) and on the tags of a UnaryOpExpr (OpLogicalNot, OpNegate), and two
BinaryOpExpr nodes, or two UnaryOpExpr nodes, with such tags for which `Enter`
does the same from the same state carry the same operator. -/
theorem opAsString_one_collision :
    opAsString .OpSubtract = some "-".toList ∧ opAsString .OpNegate = some "-".toList ∧
    Operation.OpSubtract ≠ Operation.OpNegate ∧
    (∀ a ∈ tableTags, ∀ b ∈ tableTags, a ≠ b → opAsString a = opAsString b →
      (a = .OpSubtract ∧ b = .OpNegate) ∨ (a = .OpNegate ∧ b = .OpSubtract)) ∧
    (∀ op, op ∈ binaryTags ↔ op ∈ tableTags ∧ op ≠ .OpLogicalNot ∧ op ≠ .OpNegate) ∧
    (∀ op, op ∈ unaryTags ↔ op = .OpLogicalNot ∨ op = .OpNegate) ∧
    (∀ a ∈ binaryTags, ∀ b ∈ binaryTags, opAsString a = opAsString b → a = b) ∧
    (∀ a ∈ unaryTags, ∀ b ∈ unaryTags, opAsString a = opAsString b → a = b) ∧
    (∀ (w : walker) (ca cb : List Node) (stdout : List Bytes), w.leaf = false → 0 ≤ w.indent →
      (∀ a ∈ binaryTags, ∀ b ∈ binaryTags,
        Enter w (.mk (.BinaryOpExpr a) ca) stdout = Enter w (.mk (.BinaryOpExpr b) cb) stdout →
          a = b) ∧
      (∀ a ∈ unaryTags, ∀ b ∈ unaryTags,
        Enter w (.mk (.UnaryOpExpr a) ca) stdout = Enter w (.mk (.UnaryOpExpr b) cb) stdout →
          a = b)) := by
  refine ⟨rfl, rfl, by decide, opAsString_eq_on_table, ?_, ?_, opAsString_injective_binary,
    opAsString_injective_unary, ?_⟩
  · intro op
    cases op <;> simp [binaryTags, tableTags]
  · intro op
    cases op <;> simp [unaryTags]
  · intro w ca cb stdout hflag hdepth
    obtain ⟨indent, leaf, file⟩ := w
    simp only at hflag hdepth
    obtain ⟨i, rfl⟩ := Int.eq_ofNat_of_zero_le hdepth
    subst hflag
    constructor
    · intro a ha b hb h
      have hta := mem_tableTags_of_binary ha
      have htb := mem_tableTags_of_binary hb
      rw [Enter_done file i (.BinaryOpExpr a) ca stdout (by simpa [Kind.opInTable] using hta),
        Enter_done file i (.BinaryOpExpr b) cb stdout (by simpa [Kind.opInTable] using htb)] at h
      injection h with _ h2
      have h3 := List.append_cancel_left h2
      simp only [switchWrites, fragment, Node.kind, fmtT, List.append_assoc, List.cons_append,
        List.nil_append, List.singleton_append, List.cons.injEq, true_and, and_true] at h3
      have hs : symbol a = symbol b :=
        symbol_eq_of_fragment_eq "(*hclsyntax.BinaryOpExpr \"".toList _ _ (by simpa using h3)
      apply opAsString_injective_binary a ha b hb
      rw [opAsString_of_mem hta, opAsString_of_mem htb, hs]
    · intro a ha b hb h
      have hta := mem_tableTags_of_unary ha
      have htb := mem_tableTags_of_unary hb
      rw [Enter_done file i (.UnaryOpExpr a) ca stdout (by simpa [Kind.opInTable] using hta),
        Enter_done file i (.UnaryOpExpr b) cb stdout (by simpa [Kind.opInTable] using htb)] at h
      injection h with _ h2
      have h3 := List.append_cancel_left h2
      simp only [switchWrites, fragment, Node.kind, fmtT, List.append_assoc, List.cons_append,
        List.nil_append, List.singleton_append, List.cons.injEq, true_and, and_true] at h3
      have hs : symbol a = symbol b :=
        symbol_eq_of_fragment_eq "(*hclsyntax.UnaryOpExpr \"".toList _ _ (by simpa using h3)
      apply opAsString_injective_unary a ha b hb
      rw [opAsString_of_mem hta, opAsString_of_mem htb, hs]

/-- Witness of C19: the two tags that print `-` are told apart by the kind of the
node, one being a tag of a BinaryOpExpr only and the other of a UnaryOpExpr
only. -/
theorem opAsString_one_collision_witness :
    Operation.OpSubtract ∈ binaryTags ∧ Operation.OpNegate ∉ binaryTags ∧
      Operation.OpNegate ∈ unaryTags ∧ Operation.OpSubtract ∉ unaryTags ∧
      opAsString .OpSubtract = some "-".toList ∧ opAsString .OpNegate = some "-".toList :=
  ⟨by decide, by decide, by decide, by decide, opAsString_one_collision.1,
    opAsString_one_collision.2.1⟩

end HclParse
